import Mathlib

/-!
Shallow embedding of the puzzle-solution scripts of the
`derailed-dash/advent-of-code` repository, together with proofs of the
specification claims about them.

Conventions used throughout:
* Python integers are modelled as `Int` (arbitrary precision, so no overflow).
  For a positive modulus, Python's `%` is `Int.emod` and Python's `//` is
  `Int.ediv`, which is what Lean's `%` and `/` on `Int` denote.
* A Python function that can raise is modelled with `Option` (`none` models
  the raised exception).
* Loops become structural recursion with explicit state threading; the one
  genuinely unbounded loop (2018 day 1, part 2) is modelled with explicit
  fuel, and non-termination is `= none` for every fuel.
-/

/-! ## 2025 day 1 (`d01.py`): safe-dial rotations, arithmetic solution -/

namespace D01

/-- `int(s)` on a string of decimal digits: the decimal value of a digit list.
Models `int(instruction[1:])` for a well-formed instruction. -/
def digitsToNat (cs : List Char) : Nat :=
  cs.foldl (fun a c => a * 10 + (c.toNat - 48)) 0

/-- The direction character of an instruction: `instruction[0]`. -/
def instrDir (s : String) : Char :=
  s.data.headD ' '

/-- The click count of an instruction: `int(instruction[1:])`. -/
def instrClicks (s : String) : Int :=
  (digitsToNat s.data.tail : Int)

/-- A well-formed rotation instruction: a character `L` or `R` followed by a
non-empty string of decimal digits. -/
def wellFormedInstr (s : String) : Bool :=
  match s.data with
  | [] => false
  | d :: ds => (d = 'L' || d = 'R') && !ds.isEmpty && ds.all (·.isDigit)

/-- The loop body state of `part1` in `d01.py`: processes the instruction
list, threading the current position and the zero counter. -/
def part1Go (dialNums : Int) : List String → Int → Int → Int
  | [], _, zeroCounter => zeroCounter
  | instruction :: rest, currPos, zeroCounter =>
    let direction := instrDir instruction
    let clicks := instrClicks instruction
    let clicks := if direction = 'L' then dialNums - clicks else clicks
    let currPos := (currPos + clicks) % dialNums
    part1Go dialNums rest currPos
      (if currPos = 0 then zeroCounter + 1 else zeroCounter)

/-- `part1` of `d01.py`: counts how many rotations end with the dial at 0. -/
def part1 (data : List String) (start : Int := 50) (dialNums : Int := 100) : Int :=
  part1Go dialNums data start 0

/-- The loop body of `part2` in `d01.py` (the arithmetic solution):
counts every click at which the dial points at 0. -/
def part2Go (dialNums : Int) : List String → Int → Int → Int
  | [], _, zeroCounter => zeroCounter
  | instruction :: rest, currPos, zeroCounter =>
    let direction := instrDir instruction
    let clicks := instrClicks instruction
    if direction = 'R' then
      part2Go dialNums rest ((currPos + clicks) % dialNums)
        (zeroCounter + (currPos + clicks) / dialNums)
    else
      let newPos := (currPos - clicks) % dialNums
      let zeroCounter :=
        if currPos = 0 then
          zeroCounter + clicks / dialNums
        else if clicks > currPos then
          zeroCounter + ((clicks - currPos - 1) / dialNums) + 1 +
            (if newPos = 0 then 1 else 0)
        else if clicks = currPos then
          zeroCounter + 1
        else
          zeroCounter
      part2Go dialNums rest newPos zeroCounter

/-- `part2` of `d01.py` (the arithmetic zero-crossing count). -/
def part2 (data : List String) (start : Int := 50) (dialNums : Int := 100) : Int :=
  part2Go dialNums data start 0

/-- Closed form for the number of clicks landing on 0 during a single
left rotation of `n` clicks from position `pos` (proof-side helper). -/
def countL (pos : Int) (n : Nat) : Int :=
  if pos = 0 then (n : Int) / 100
  else if pos ≤ (n : Int) then ((n : Int) - pos) / 100 + 1
  else 0

end D01

/-! ## 2025 day 1 (`d01-range.py`): same puzzle, click-by-click simulation -/

namespace D01R

/-- One click of the dial in `part2` of `d01-range.py`. -/
def click (dialNums : Int) (direction : Char) (currPos : Int) : Int :=
  if direction = 'R' then (currPos + 1) % dialNums else (currPos - 1) % dialNums

/-- The `for _ in range(clicks)` loop of `part2` in `d01-range.py`: simulates
every click, counting each click that lands on 0. -/
def clickLoop (dialNums : Int) (direction : Char) :
    Nat → Int → Int → Int × Int
  | 0, currPos, zeroCounter => (currPos, zeroCounter)
  | n + 1, currPos, zeroCounter =>
    let currPos := click dialNums direction currPos
    clickLoop dialNums direction n currPos
      (if currPos = 0 then zeroCounter + 1 else zeroCounter)

/-- The instruction loop of `part2` in `d01-range.py`. -/
def part2Go (dialNums : Int) : List String → Int → Int → Int
  | [], _, zeroCounter => zeroCounter
  | instruction :: rest, currPos, zeroCounter =>
    let direction := D01.instrDir instruction
    let clicks := D01.digitsToNat instruction.data.tail
    let st := clickLoop dialNums direction clicks currPos zeroCounter
    part2Go dialNums rest st.1 st.2

/-- `part2` of `d01-range.py` (the click-by-click simulation). -/
def part2 (data : List String) (start : Int := 50) (dialNums : Int := 100) : Int :=
  part2Go dialNums data start 0

end D01R

/-! ## 2025 day 5 (`d05.py`): interval merging -/

namespace D05

/-- The order by which Python's `list.sort` sorts the two-element lists
`[start, end]`: lexicographic on the pair.  Since this order is linear,
any sorting algorithm produces the same result, so `List.insertionSort`
is a faithful model of `intervals.sort()`. -/
def lexLe (p q : Int × Int) : Prop :=
  p.1 < q.1 ∨ (p.1 = q.1 ∧ p.2 ≤ q.2)

instance : DecidableRel lexLe := fun p q => by
  unfold lexLe; infer_instance

/-- The stack loop of `merge_intervals`: `top` is `stack[-1]`, the already
emitted intervals are accumulated in front of the result. -/
def mergeLoop (top : Int × Int) : List (Int × Int) → List (Int × Int)
  | [] => [top]
  | interval :: rest =>
    if top.1 ≤ interval.1 ∧ interval.1 ≤ top.2 then
      mergeLoop (top.1, max top.2 interval.2) rest
    else
      top :: mergeLoop interval rest

/-- `merge_intervals` of `d05.py`: sort, then merge overlapping intervals
with a stack.  (On the empty list the Python code raises `IndexError` at
`intervals[0]`; the claims only concern non-empty inputs.) -/
def merge_intervals (intervals : List (Int × Int)) : List (Int × Int) :=
  match List.insertionSort lexLe intervals with
  | [] => []
  | first :: rest => mergeLoop first rest

/-- `part2` of `d05.py`, applied to the parsed inclusive ranges:
`sum(end - start + 1 for start, end in merged_ranges)`. -/
def part2 (inclusive_ranges : List (Int × Int)) : Int :=
  ((merge_intervals inclusive_ranges).map (fun p => p.2 - p.1 + 1)).sum

/-- The set of integer IDs covered by at least one of the ranges
(specification-side notion used to state the claims). -/
def covered (ranges : List (Int × Int)) : Finset Int :=
  ranges.foldr (fun p s => Finset.Icc p.1 p.2 ∪ s) ∅

end D05

/-! ## 2015 day 20 (`elf_delivery.py`): factor enumeration -/

namespace Elf

/-- Round `n / 2^shift` to the nearest integer, ties to even: the rounding
IEEE-754 binary arithmetic applies to the low `shift` bits. -/
def roundHalfEven (n : Nat) (shift : Nat) : Nat :=
  let q := n / 2 ^ shift
  let r := n % 2 ^ shift
  let half := 2 ^ (shift - 1)
  if r < half then q
  else if half < r then q + 1
  else q + q % 2

/-- `float(num)` for a Python int `num`: the value of the nearest IEEE-754
double (round half to even at 53 significant bits).  Exact below `2^53`. -/
def floatRound (num : Nat) : Nat :=
  if num < 2 ^ 53 then num
  else
    let shift := Nat.log2 num - 52
    roundHalfEven num shift * 2 ^ shift

/-- `int(x ** 0.5)` for a double `x` holding the nonnegative integer `v`:
the floor of the correctly rounded double square root of `v`.  The square
root lies in `[2^j, 2^(j+1))` with `j = Nat.log2 (Nat.sqrt v)`, so the unit
in the last place is `2^(j-52)`; the definition rounds the true square root
to the nearest multiple of that ulp (ties to even) and truncates. -/
def pySqrtFloor (v : Nat) : Nat :=
  let s := Nat.sqrt v
  let j := Nat.log2 s
  if 52 ≤ j then
    let u := j - 52
    let m0 := s / 2 ^ u
    let m :=
      if u = 0 then
        if (2 * m0 + 1) ^ 2 < 4 * v then m0 + 1 else m0
      else
        let mid := (2 * m0 + 1) * 2 ^ (u - 1)
        if mid ^ 2 < v then m0 + 1
        else if v < mid ^ 2 then m0
        else m0 + m0 % 2
    m * 2 ^ u
  else
    let d := 52 - j
    let m0 := Nat.sqrt (v * 4 ^ d)
    let m := if (2 * m0 + 1) ^ 2 < 4 * (v * 4 ^ d) then m0 + 1 else m0
    m / 2 ^ d

/-- `int(num ** 0.5)` on a Python int that converts to a finite double. -/
def pyIntSqrt (num : Nat) : Nat :=
  pySqrtFloor (floatRound num)

/-- `get_factors` of `elf_delivery.py`: collects `i` and `num // i` for every
`i` in `range(1, int(num**0.5) + 1)` dividing `num`.  `num ** 0.5` converts
`num` to a double (raising `OverflowError`, modelled as `none`, when the
rounded value reaches `2^1024`) and takes its correctly rounded square
root. -/
def get_factors (num : Nat) : Option (Finset Nat) :=
  if 2 ^ 1024 ≤ floatRound num then none
  else
    some ((List.range' 1 (pyIntSqrt num)).foldl
      (fun factors i =>
        if num % i = 0 then insert (num / i) (insert i factors) else factors)
      ∅)

end Elf

/-! ## 2018 day 1 (`d01.py`): cycle the deltas until a frequency repeats -/

namespace Y18D01

/-- The `for freq_chg in cycle(data)` loop of `part2`, with explicit fuel:
`i` is the index into the cycled list, `freq` the running frequency and
`seen` the set of frequencies seen so far.  `none` models "still looping
after `fuel` deltas". -/
def part2Go (data : List Int) : Nat → Nat → Int → Finset Int → Option Int
  | 0, _, _, _ => none
  | fuel + 1, i, freq, seen =>
    let freq := freq + data.getD (i % data.length) 0
    if freq ∈ seen then some freq
    else part2Go data fuel (i + 1) freq (insert freq seen)

/-- `part2` of the 2018 day-1 script, run for at most `fuel` deltas. -/
def part2 (data : List Int) (fuel : Nat) : Option Int :=
  part2Go data fuel 0 0 ∅

/-- The cumulative frequency after `k` deltas of the cycled list
(proof-side helper). -/
def psum (data : List Int) (k : Nat) : Int :=
  (Finset.range k).sum (fun j => data.getD (j % data.length) 0)

/-- The `seen` set after `i` loop iterations (proof-side helper). -/
def seenF (data : List Int) (i : Nat) : Finset Int :=
  (Finset.range i).image (fun j => psum data (j + 1))

end Y18D01

/-! ## The shared script skeleton: `main`, the `__main__` guard, and the
self-test harness `test_solution` -/

namespace Harness

/-- Outcome of reading the puzzle input file at the top of `main`. -/
inductive ReadOutcome where
  | ok
  | fileNotFound
  | valueError
deriving DecidableEq

/-- How a script's process run ends, as far as the claims are concerned. -/
inductive RunEnd where
  /-- `main` executed `return v`; the `__main__` guard `main()` discards it. -/
  | returned (v : Int)
  /-- somewhere inside `main`, `sys.exit(code)` was executed. -/
  | sysExit (code : Nat)
  /-- an exception propagated out of `main` uncaught. -/
  | uncaught
deriving DecidableEq

/-- The `try/except` around the input read in `main` of `d01.py` (and the
other 2025/2018 scripts): on `FileNotFoundError` or `ValueError` the error
is logged and `main` returns `1`; the returned value records what `main`
did on that path, the `Bool` whether `logger.error` ran. -/
def mainOnRead (r : ReadOutcome) : Option (RunEnd × Bool) :=
  match r with
  | .fileNotFound => some (.returned 1, true)
  | .valueError => some (.returned 1, true)
  | .ok => none

/-- `main` of the 2022 day-15 script (`more_sensors_and_beacons.py`) reads
its input with `open(INPUT_FILE)` and no `try/except`: a read failure
propagates out of `main` uncaught, and nothing is logged by the script. -/
def mainOnReadPlain (r : ReadOutcome) : Option (RunEnd × Bool) :=
  match r with
  | .fileNotFound => some (.uncaught, false)
  | .valueError => some (.uncaught, false)
  | .ok => none

/-- The process exit code produced by the `if __name__ == "__main__": main()`
guard for a given end of `main`: a plain `main()` call discards the return
value, so a normal return exits the interpreter with code 0, while an
uncaught exception makes the interpreter exit with code 1. -/
def script_exit_code : RunEnd → Nat
  | .returned _ => 0
  | .sysExit code => code
  | .uncaught => 1

/-- Result of running a `test_solution` harness. -/
inductive TestResult where
  /-- a failure was caught, `logger.error` ran, and `sys.exit(1)` was called. -/
  | exit1Logged
  /-- an `AssertionError` propagated out of `test_solution` uncaught. -/
  | uncaughtAssertion
  /-- every sample validated; the "tests passed" message was logged and the
  function returned normally. -/
  | passedNormally
deriving DecidableEq

/-- Modelled from the spec: `ac.validate`, the "assertion-based `validate`
test helper" of the shared `aoc_common` library (not under `src/`), which
asserts equality of the computed and the expected answer and raises
`AssertionError` when they differ: here, the `Bool` saying whether it
raises. -/
def validateRaises {α : Type} [DecidableEq α] (computed expected : α) : Bool :=
  computed ≠ expected

/-- `test_solution` as written in `2025/d01/d01.py` and `2018/d02/d02.py`:
the `ac.validate` call sits in a `try/except AssertionError` whose handler
logs the failure and calls `sys.exit(1)`. -/
def test_solution_catching {α : Type} [DecidableEq α]
    (soln_func : String → α) :
    List String → List α → TestResult
  | curr_input :: more_inputs, curr_ans :: more_answers =>
    if validateRaises (soln_func curr_input) curr_ans then .exit1Logged
    else test_solution_catching soln_func more_inputs more_answers
  | _, _ => .passedNormally

/-- `test_solution` as written in `2018/d01/d01.py`: the `ac.validate` call
is bare, so an `AssertionError` propagates out uncaught (nothing is logged
by the script and `sys.exit` is never reached). -/
def test_solution_plain {α : Type} [DecidableEq α]
    (soln_func : String → α) :
    List String → List α → TestResult
  | curr_input :: more_inputs, curr_ans :: more_answers =>
    if validateRaises (soln_func curr_input) curr_ans then .uncaughtAssertion
    else test_solution_plain soln_func more_inputs more_answers
  | _, _ => .passedNormally

end Harness

/-! ## 2018 day 3 (`d03.py`): fabric claims on a 1000x1000 grid -/

namespace Y18D03

/-- The `Claim` dataclass of `d03.py`. -/
structure Claim where
  claim_id : Nat
  x : Nat
  y : Nat
  width : Nat
  height : Nat
deriving DecidableEq

/-- The cell `(i, j)` lies in the rectangle of claim `c`. -/
def inRect (c : Claim) (p : Nat × Nat) : Prop :=
  c.x ≤ p.1 ∧ p.1 < c.x + c.width ∧ c.y ≤ p.2 ∧ p.2 < c.y + c.height

instance : DecidablePred (fun p => inRect c p) := fun p => by
  unfold inRect; infer_instance

/-- The cell lies inside the `np.zeros((1000, 1000))` array. -/
def inGrid (p : Nat × Nat) : Prop :=
  p.1 < 1000 ∧ p.2 < 1000

instance : DecidablePred inGrid := fun p => by
  unfold inGrid; infer_instance

/-- The cells of the numpy slice `array[c.x:c.x+c.width, c.y:c.y+c.height]`
before clipping, enumerated row by row. -/
def rectCells (c : Claim) : List (Nat × Nat) :=
  (List.range c.width).flatMap
    (fun dx => (List.range c.height).map (fun dy => (c.x + dx, c.y + dy)))

/-- The loop `for claim in claims: array[...] += 1` of `part2`: a numpy
slice is clipped at the array bounds, so only in-grid cells are counted. -/
def buildArray (claims : List Claim) : (Nat × Nat) → Nat :=
  claims.foldl
    (fun a c => fun p => if inGrid p ∧ inRect c p then a p + 1 else a p)
    (fun _ => 0)

/-- Specification-side count: the number of claims whose rectangle covers
the cell `p`. -/
def coverCount (claims : List Claim) (p : Nat × Nat) : Nat :=
  (claims.filter (fun c => decide (inRect c p))).length

/-- The second loop of `part2`: return the id of the first claim whose
(clipped) slice holds only 1s; `none` models the final
`raise AssertionError("No non-overlapping claim found")`. -/
def findClean (a : (Nat × Nat) → Nat) : List Claim → Option Nat
  | [] => none
  | c :: rest =>
    if ((rectCells c).filter (fun p => decide (inGrid p))).all
        (fun p => a p == 1) then
      some c.claim_id
    else findClean a rest

/-- `part2` of `d03.py`. -/
def part2 (claims : List Claim) : Option Nat :=
  findClean (buildArray claims) claims

/-- The declarative property of the claim statement: every cell of the
rectangle of `c` is covered by exactly one of the claims. -/
def CleanClaim (claims : List Claim) (c : Claim) : Prop :=
  ∀ p ∈ rectCells c, coverCount claims p = 1

instance : ∀ c, Decidable (CleanClaim claims c) := fun c => by
  unfold CleanClaim; infer_instance

end Y18D03

/-! ## 2025 day 8 (`d08.py`): union-find over junction boxes -/

namespace D08

/-- The `Box` NamedTuple: a junction box in 3D space. -/
structure Box where
  x : Int
  y : Int
  z : Int
deriving DecidableEq

/-- The squared Euclidean distance between two boxes.  `get_distance`
returns its float square root; the square root is monotone, so sorting by
the squared distance models sorting by `get_distance`. -/
def sqDist (b1 b2 : Box) : Int :=
  (b1.x - b2.x) ^ 2 + (b1.y - b2.y) ^ 2 + (b1.z - b2.z) ^ 2

/-- `itertools.combinations(boxes, 2)`: all unordered pairs, in input
order. -/
def combinations {α : Type} : List α → List (α × α)
  | [] => []
  | b :: rest => rest.map (fun c => (b, c)) ++ combinations rest

/-- The `CircuitNetwork` class: the union-find state. -/
structure CircuitNetwork (α : Type) where
  /-- `self.circuit_leader`: the parent dictionary.  Modelled as a total
  function that is the identity outside the boxes it was built from. -/
  circuit_leader : α → α
  /-- `self.circuit_count`: the number of disjoint circuits remaining. -/
  circuit_count : Nat

variable {α : Type} [DecidableEq α]

/-- `CircuitNetwork.__init__`: each box is its own leader, the count is the
number of boxes. -/
def CircuitNetwork.init (boxes : List α) : CircuitNetwork α :=
  { circuit_leader := fun b => b, circuit_count := boxes.length }

/-- The recursion of `CircuitNetwork.find` with explicit fuel: returns the
updated parent map and the found leader.  Each recursive call rewrites the
entry of the current box to the root (path compression), exactly as
`self.circuit_leader[box] = self.find(self.circuit_leader[box])` does. -/
def findAux : Nat → (α → α) → α → ((α → α) × α)
  | 0, f, b => (f, b)
  | fuel + 1, f, b =>
    if f b = b then (f, b)
    else
      let p := findAux fuel f (f b)
      (Function.update p.1 b p.2, p.2)

/-- `CircuitNetwork.find`. -/
def CircuitNetwork.find (net : CircuitNetwork α) (fuel : Nat) (b : α) :
    CircuitNetwork α × α :=
  let p := findAux fuel net.circuit_leader b
  ({ net with circuit_leader := p.1 }, p.2)

/-- `CircuitNetwork.union`: find both leaders; if distinct, point `leader1`
at `leader2` and decrement the circuit count. -/
def CircuitNetwork.union (net : CircuitNetwork α) (fuel : Nat) (b1 b2 : α) :
    CircuitNetwork α × Bool :=
  let p1 := net.find fuel b1
  let p2 := p1.1.find fuel b2
  if p1.2 ≠ p2.2 then
    ({ circuit_leader := Function.update p2.1.circuit_leader p1.2 p2.2,
       circuit_count := p2.1.circuit_count - 1 }, true)
  else (p2.1, false)

/-- A `find` or `union` call on the network. -/
inductive Op (α : Type) where
  | find (b : α)
  | union (b1 b2 : α)

/-- Run a sequence of `find` and `union` calls. -/
def exec (fuel : Nat) : CircuitNetwork α → List (Op α) → CircuitNetwork α
  | net, [] => net
  | net, .find b :: rest => exec fuel (net.find fuel b).1 rest
  | net, .union b1 b2 :: rest => exec fuel (net.union fuel b1 b2).1 rest

/-- The pairs of boxes passed to the `union` calls of an op sequence. -/
def unionPairs : List (Op α) → List (α × α)
  | [] => []
  | .find _ :: rest => unionPairs rest
  | .union b1 b2 :: rest => (b1, b2) :: unionPairs rest

/-- Every box mentioned by the op belongs to `S`. -/
def OpOn (S : Finset α) : Op α → Prop
  | .find b => b ∈ S
  | .union b1 b2 => b1 ∈ S ∧ b2 ∈ S

/-- The symmetric relation generated by a list of pairs. -/
def pairRel (pairs : List (α × α)) (a b : α) : Prop :=
  (a, b) ∈ pairs ∨ (b, a) ∈ pairs

/-- The root of `b` under the parent map `f`: iterating a parent map that is
acyclic on the `n`-element box set reaches the root within `n` steps and
stays there. -/
def rootD (n : Nat) (f : α → α) (b : α) : α :=
  f^[n] b

/-- The loop of `part2` of `d08.py`: union each connection in order; when a
merge reduces the circuit count to 1, return the product of the x
coordinates of that connection. -/
def part2Go (fuel : Nat) (net : CircuitNetwork Box) :
    List (Box × Box) → Option Int
  | [] => none
  | (box1, box2) :: rest =>
    let p := net.union fuel box1 box2
    if p.2 then
      if p.1.circuit_count = 1 then some (box1.x * box2.x)
      else part2Go fuel p.1 rest
    else part2Go fuel p.1 rest

/-- The order by which `connections.sort(key=...)` sorts the pairs. -/
def distLe (p q : Box × Box) : Prop :=
  sqDist p.1 p.2 ≤ sqDist q.1 q.2

instance : DecidableRel distLe := fun p q => by
  unfold distLe; infer_instance

/-- `part2` of `d08.py`. -/
def part2 (boxes : List Box) : Option Int :=
  part2Go boxes.length (CircuitNetwork.init boxes)
    (List.insertionSort distLe (combinations boxes))

/-- `r` is the root of the parent chain of `b`: a fixed point of `f`
reached from `b` (proof-side notion). -/
def IsRootOf (f : α → α) (b r : α) : Prop :=
  f r = r ∧ ∃ k : Nat, f^[k] b = r

/-- The invariant tying a `CircuitNetwork` state to the box set `S` and the
list of box pairs passed to the `union` calls performed so far. -/
structure UFInv (S : Finset α) (pairs : List (α × α))
    (net : CircuitNetwork α) : Prop where
  /-- boxes outside the dictionary are untouched (identity). -/
  outside : ∀ b ∉ S, net.circuit_leader b = b
  /-- the parent of a box is a box. -/
  closure : ∀ b ∈ S, net.circuit_leader b ∈ S
  /-- the parent chains are acyclic: some rank strictly drops along them. -/
  acyclic : ∃ rk : α → Nat,
    ∀ b ∈ S, net.circuit_leader b ≠ b → rk (net.circuit_leader b) < rk b
  /-- `circuit_count` is the number of distinct root leaders. -/
  count : net.circuit_count =
    (S.image (rootD S.card net.circuit_leader)).card
  /-- the recorded union pairs only mention boxes. -/
  pairsIn : ∀ p ∈ pairs, p.1 ∈ S ∧ p.2 ∈ S
  /-- two boxes share a root exactly when the unions so far connect them. -/
  part : ∀ a ∈ S, ∀ b ∈ S,
    (rootD S.card net.circuit_leader a = rootD S.card net.circuit_leader b ↔
      Relation.EqvGen (pairRel pairs) a b)

/-- Fold plain unions over a pair list (proof-side: the run of `part2`
without the early return). -/
def foldUnions (fuel : Nat) (net : CircuitNetwork α) :
    List (α × α) → CircuitNetwork α
  | [] => net
  | (b1, b2) :: rest => foldUnions fuel (net.union fuel b1 b2).1 rest

end D08

/-! # Theorems for the claims -/

/-! ## C2: the sample rotation sequence -/

set_option maxRecDepth 2000

/-! ## 2025 day 1: closed forms for the click-by-click simulation, and
equivalence of the two `part2` implementations -/

/-- A right rotation of `n` clicks from `pos` lands on `(pos + n) % 100` and
points at 0 exactly `(pos + n) / 100` times along the way. -/
theorem clickLoop_R (n : Nat) : ∀ pos acc : Int, 0 ≤ pos → pos < 100 →
    D01R.clickLoop 100 'R' n pos acc = ((pos + n) % 100, acc + (pos + n) / 100) := by
  induction n with
  | zero =>
    intro pos acc h0 h1
    simp only [D01R.clickLoop, Nat.cast_zero]
    refine Prod.ext ?_ ?_ <;> simp only <;> omega
  | succ n ih =>
    intro pos acc h0 h1
    rw [D01R.clickLoop]
    simp only [D01R.click, if_pos (rfl : ('R' : Char) = 'R'), if_true]
    rw [ih ((pos + 1) % 100) _ (by omega) (by omega)]
    by_cases h : (pos + 1) % 100 = 0 <;>
      refine Prod.ext ?_ ?_ <;> simp only [h, if_true, if_false, reduceIte] <;> push_cast <;> omega

/-- A left rotation of `n` clicks from `pos` lands on `(pos - n) % 100` and
points at 0 exactly `countL pos n` times along the way. -/
theorem clickLoop_L (n : Nat) : ∀ pos acc : Int, 0 ≤ pos → pos < 100 →
    D01R.clickLoop 100 'L' n pos acc = ((pos - n) % 100, acc + D01.countL pos n) := by
  induction n with
  | zero =>
    intro pos acc h0 h1
    simp only [D01R.clickLoop, Nat.cast_zero, D01.countL]
    refine Prod.ext ?_ ?_ <;> simp only <;> omega
  | succ n ih =>
    intro pos acc h0 h1
    rw [D01R.clickLoop]
    simp only [D01R.click, if_neg (by decide : ¬(('L' : Char) = 'R'))]
    rw [ih ((pos - 1) % 100) _ (by omega) (by omega)]
    by_cases h : (pos - 1) % 100 = 0 <;>
      refine Prod.ext ?_ ?_ <;>
      simp only [h, if_true, if_false, reduceIte, D01.countL] <;> push_cast <;> omega

/-- A well-formed instruction starts with `L` or `R`. -/
theorem wf_dir {s : String} (h : D01.wellFormedInstr s) :
    D01.instrDir s = 'L' ∨ D01.instrDir s = 'R' := by
  unfold D01.wellFormedInstr at h
  unfold D01.instrDir
  rcases hd : s.data with _ | ⟨c, cs⟩ <;> rw [hd] at h
  · simp at h
  · simp only [Bool.and_eq_true, Bool.or_eq_true, decide_eq_true_eq] at h
    simpa using h.1.1

/-- The instruction loops of the arithmetic `part2` (`d01.py`) and of the
click-by-click `part2` (`d01-range.py`) agree, from any dial position, for
well-formed instructions. -/
theorem part2Go_eqv : ∀ (data : List String) (pos acc : Int),
    (∀ s ∈ data, D01.wellFormedInstr s) → 0 ≤ pos → pos < 100 →
    D01.part2Go 100 data pos acc = D01R.part2Go 100 data pos acc := by
  intro data
  induction data with
  | nil => intro pos acc _ _ _; rfl
  | cons s rest ih =>
    intro pos acc hwf h0 h1
    have hs := hwf s (by simp)
    have hrest : ∀ t ∈ rest, D01.wellFormedInstr t := fun t ht => hwf t (by simp [ht])
    rcases wf_dir hs with hL | hR
    · rw [D01.part2Go, D01R.part2Go]
      simp only [hL, if_neg (by decide : ¬(('L' : Char) = 'R')), D01.instrClicks]
      rw [clickLoop_L _ _ _ h0 h1]
      simp only
      rw [ih _ _ hrest (by omega) (by omega)]
      congr 1
      simp only [D01.countL]
      omega
    · rw [D01.part2Go, D01R.part2Go]
      simp only [hR, if_pos (rfl : ('R' : Char) = 'R'), if_true, D01.instrClicks]
      rw [clickLoop_R _ _ _ h0 h1]
      simp only
      rw [ih _ _ hrest (by omega) (by omega)]

/-- C2: for the sample rotation-instruction sequence, with start position 50
on a 100-position dial, `part1` returns 3 (the dial ends at position 0 after
exactly 3 of the rotations) and `part2` returns 6 (the dial points at 0
exactly 6 times during the rotations) — in both the arithmetic solution
`d01.py` and the click-by-click simulation `d01-range.py`. -/
theorem c2_sample_counts :
    D01.part1 ["L68", "L30", "R48", "L5", "R60", "L55", "L1", "L99", "R14", "L82"] 50 100 = 3 ∧
    D01.part2 ["L68", "L30", "R48", "L5", "R60", "L55", "L1", "L99", "R14", "L82"] 50 100 = 6 ∧
    D01R.part2 ["L68", "L30", "R48", "L5", "R60", "L55", "L1", "L99", "R14", "L82"] 50 100 = 6 := by
  refine ⟨by decide, by decide, ?_⟩
  rw [D01R.part2, ← part2Go_eqv _ _ _ (by decide) (by decide) (by decide)]
  decide

/-! ## C3: the arithmetic `part2` refines the click-by-click `part2` -/

/-- C3: for every list of well-formed instructions (`L` or `R` followed by
decimal digits), every start position in `[0, 100)` and `dial_nums = 100`,
the arithmetic `part2` of `d01.py` returns the same zero-crossing count as
the click-by-click simulation `part2` of `d01-range.py`. -/
theorem c3_part2_equiv (data : List String) (start : Int)
    (hwf : ∀ s ∈ data, D01.wellFormedInstr s)
    (h0 : 0 ≤ start) (h1 : start < 100) :
    D01.part2 data start 100 = D01R.part2 data start 100 :=
  part2Go_eqv data start 0 hwf h0 h1

/-- Witness for C3, at the sample instruction list and start position 50. -/
theorem c3_part2_equiv_witness :
    (∀ s ∈ ["L68", "L30", "R48", "L5", "R60", "L55", "L1", "L99", "R14", "L82"],
      D01.wellFormedInstr s) ∧
    D01.part2 ["L68", "L30", "R48", "L5", "R60", "L55", "L1", "L99", "R14", "L82"] 50 100 =
      D01R.part2 ["L68", "L30", "R48", "L5", "R60", "L55", "L1", "L99", "R14", "L82"] 50 100 :=
  ⟨by decide, c3_part2_equiv _ 50 (by decide) (by decide) (by decide)⟩

/-! ## C1: read failure handling and the process exit code -/

/-- Counterexample for C1: on a missing input file the error is caught and
`main` returns 1, but the bare `main()` call in the `__main__` guard
discards the return value, so the process exit code is 0, not 1. -/
theorem c1_counterexample :
    Harness.mainOnRead .fileNotFound = some (.returned 1, true) ∧
    Harness.script_exit_code (.returned 1) = 0 ∧
    ¬ Harness.script_exit_code (.returned 1) = 1 :=
  ⟨rfl, rfl, by decide⟩

/-- C1 as amended: in the scripts with the shared `try/except` skeleton
(the 2025 and 2018 solutions, e.g. `d01.py`), a `FileNotFoundError` or
`ValueError` while reading the input is caught and logged and `main`
returns 1 early, but the process exits with code 0, because the
`if __name__ == "__main__": main()` guard discards the return value.  In
the 2022 day-15 script (`more_sensors_and_beacons.py`), whose read has no
`try/except`, the exception propagates uncaught: nothing is caught or
logged, `main` does not return 1, and the process exits with code 1. -/
theorem c1_amended (r : Harness.ReadOutcome) (h : r ≠ .ok) :
    (Harness.mainOnRead r = some (.returned 1, true) ∧
      Harness.script_exit_code (.returned 1) = 0) ∧
    (Harness.mainOnReadPlain r = some (.uncaught, false) ∧
      Harness.script_exit_code .uncaught = 1) := by
  cases r
  · exact absurd rfl h
  · exact ⟨⟨rfl, rfl⟩, ⟨rfl, rfl⟩⟩
  · exact ⟨⟨rfl, rfl⟩, ⟨rfl, rfl⟩⟩

/-- Witness for C1 as amended, at the missing-file outcome. -/
theorem c1_amended_witness :
    Harness.ReadOutcome.fileNotFound ≠ .ok ∧
    ((Harness.mainOnRead .fileNotFound = some (.returned 1, true) ∧
      Harness.script_exit_code (.returned 1) = 0) ∧
    (Harness.mainOnReadPlain .fileNotFound = some (.uncaught, false) ∧
      Harness.script_exit_code .uncaught = 1)) :=
  ⟨by decide, c1_amended .fileNotFound (by decide)⟩

/-! ## C8: behaviour of the self-test harness `test_solution` -/

/-- Counterexample for C8: in the `test_solution` of the 2018 day-1 script
(cited by the claim) a failing `ac.validate` call is not caught: the
`AssertionError` propagates, nothing is logged and `sys.exit(1)` is never
reached. -/
theorem c8_counterexample :
    Harness.test_solution_plain (fun _ => (0 : Int)) ["x"] [1] =
      .uncaughtAssertion ∧
    ¬ Harness.test_solution_plain (fun _ => (0 : Int)) ["x"] [1] =
      .exit1Logged := by
  constructor
  · rfl
  · decide

/-- C8 as amended: in the harnesses of `2025/d01/d01.py` and
`2018/d02/d02.py` an `ac.validate` failure is caught, logged and followed by
`sys.exit(1)`, while in `2018/d01/d01.py` the `AssertionError` propagates
uncaught; in all of them, when every sample test passes the "tests passed"
message is logged and the function returns normally.  (`ac.validate` is
modelled from the spec as raising `AssertionError` exactly on a
computed/expected mismatch.) -/
theorem c8_amended {α : Type} [DecidableEq α] (soln : String → α)
    (inputs : List String) (answers : List α) :
    ((∃ p ∈ inputs.zip answers, soln p.1 ≠ p.2) →
      Harness.test_solution_catching soln inputs answers = .exit1Logged ∧
      Harness.test_solution_plain soln inputs answers = .uncaughtAssertion) ∧
    ((∀ p ∈ inputs.zip answers, soln p.1 = p.2) →
      Harness.test_solution_catching soln inputs answers = .passedNormally ∧
      Harness.test_solution_plain soln inputs answers = .passedNormally) := by
  induction inputs generalizing answers with
  | nil =>
    refine ⟨fun h => ?_, fun _ => ⟨rfl, rfl⟩⟩
    simp [List.zip] at h
  | cons i is ih =>
    cases answers with
    | nil => exact ⟨fun h => by simp [List.zip] at h, fun _ => ⟨rfl, rfl⟩⟩
    | cons a as =>
      by_cases hia : soln i = a
      · constructor
        · intro h
          rcases h with ⟨p, hp, hne⟩
          rcases List.mem_cons.1 (by simpa using hp) with hp1 | hp2
          · subst hp1; exact absurd hia hne
          · have := (ih as).1 ⟨p, hp2, hne⟩
            rw [Harness.test_solution_catching, Harness.test_solution_plain]
            simp only [Harness.validateRaises, hia, ne_eq, not_true_eq_false,
              decide_False, if_false, Bool.false_eq_true, reduceIte]
            exact this
        · intro h
          have := (ih as).2 fun p hp => h p (by simpa using List.mem_cons_of_mem (i, a) hp)
          rw [Harness.test_solution_catching, Harness.test_solution_plain]
          simp only [Harness.validateRaises, hia, ne_eq, not_true_eq_false,
            decide_False, if_false, Bool.false_eq_true, reduceIte]
          exact this
      · constructor
        · intro _
          rw [Harness.test_solution_catching, Harness.test_solution_plain]
          simp [Harness.validateRaises, hia]
        · intro h
          exact absurd (h (i, a) (by simp)) hia

/-- Witness for C8 as amended: a concrete failing sample for the catching
and the plain harness, and a concrete passing run. -/
theorem c8_amended_witness :
    Harness.test_solution_catching (fun _ => (0 : Int)) ["x"] [1] = .exit1Logged ∧
    Harness.test_solution_plain (fun _ => (0 : Int)) ["x"] [1] = .uncaughtAssertion ∧
    Harness.test_solution_catching (fun _ => (0 : Int)) ["x"] [0] = .passedNormally := by
  refine ⟨?_, ?_, ?_⟩
  · exact ((c8_amended (fun _ => (0 : Int)) ["x"] [1]).1 ⟨("x", 1), by decide, by decide⟩).1
  · exact ((c8_amended (fun _ => (0 : Int)) ["x"] [1]).1 ⟨("x", 1), by decide, by decide⟩).2
  · exact ((c8_amended (fun _ => (0 : Int)) ["x"] [0]).2 (by decide)).1

/-! ## C6: `get_factors` and the float square-root bound -/

/-- Membership in the accumulating fold of `get_factors`. -/
theorem get_factors_foldl_mem (num : Nat) :
    ∀ (l : List Nat) (acc : Finset Nat) (d : Nat),
    d ∈ l.foldl
        (fun factors i =>
          if num % i = 0 then insert (num / i) (insert i factors) else factors)
        acc ↔
      d ∈ acc ∨ ∃ i ∈ l, num % i = 0 ∧ (d = i ∨ d = num / i) := by
  intro l
  induction l with
  | nil => simp
  | cons i rest ih =>
    intro acc d
    rw [List.foldl_cons, ih]
    by_cases hi : num % i = 0 <;> simp [hi] <;> aesop

/-- Conversion to double is exact below `2^53`. -/
theorem floatRound_small (num : Nat) (h : num < 2 ^ 53) :
    Elf.floatRound num = num := by
  rw [Elf.floatRound, if_pos h]

/-- Below `2^52` the floor of the correctly rounded double square root is
the integer square root: the rounding error of the square root is smaller
than its distance to the nearest integer. -/
theorem pySqrtFloor_small (v : Nat) (h1 : 1 ≤ v) (h2 : v < 2 ^ 52) :
    Elf.pySqrtFloor v = Nat.sqrt v := by
  have hs1 : 1 ≤ Nat.sqrt v := Nat.sqrt_pos.2 h1
  have hs26 : Nat.sqrt v < 2 ^ 26 := by
    refine Nat.sqrt_lt.2 ?_
    calc v < 2 ^ 52 := h2
      _ = 2 ^ 26 * 2 ^ 26 := by norm_num
  have hj : Nat.log2 (Nat.sqrt v) < 26 := (Nat.log2_lt (by omega)).2 hs26
  have hbranch : ¬ 52 ≤ Nat.log2 (Nat.sqrt v) := by omega
  simp only [Elf.pySqrtFloor]
  rw [if_neg hbranch]
  set s := Nat.sqrt v with hsdef
  set d := 52 - Nat.log2 s with hddef
  have hd27 : 27 ≤ d := by omega
  have h4d : (4 : Nat) ^ d = 2 ^ d * 2 ^ d := by
    rw [show (4 : Nat) = 2 * 2 from rfl, Nat.mul_pow]
  have hDpos : 0 < 2 ^ d := Nat.pos_pow_of_pos d (by norm_num)
  have hsD : s + 1 ≤ 2 ^ d := by
    have h1 : s + 1 ≤ 2 ^ 26 := hs26
    have h2 : (2 : Nat) ^ 26 ≤ 2 ^ 27 := by norm_num
    have h3 : (2 : Nat) ^ 27 ≤ 2 ^ d := Nat.pow_le_pow_right (by norm_num) hd27
    omega
  have hm0lo : s * 2 ^ d ≤ Nat.sqrt (v * 4 ^ d) := by
    refine Nat.le_sqrt.2 ?_
    calc s * 2 ^ d * (s * 2 ^ d) = s * s * (2 ^ d * 2 ^ d) := by ring
      _ ≤ v * (2 ^ d * 2 ^ d) :=
        Nat.mul_le_mul_right _ (Nat.sqrt_le v)
      _ = v * 4 ^ d := by rw [h4d]
  have hm0hi : Nat.sqrt (v * 4 ^ d) < (s + 1) * 2 ^ d := by
    refine Nat.sqrt_lt.2 ?_
    calc v * 4 ^ d = v * (2 ^ d * 2 ^ d) := by rw [h4d]
      _ < (s + 1) * (s + 1) * (2 ^ d * 2 ^ d) := by
        refine (Nat.mul_lt_mul_right (Nat.mul_pos hDpos hDpos)).2 ?_
        exact Nat.lt_succ_sqrt v
      _ = (s + 1) * 2 ^ d * ((s + 1) * 2 ^ d) := by ring
  set m0 := Nat.sqrt (v * 4 ^ d) with hm0def
  by_cases hup : (2 * m0 + 1) ^ 2 < 4 * (v * 4 ^ d)
  · rw [if_pos hup]
    by_cases hedge : m0 + 1 = (s + 1) * 2 ^ d
    · exfalso
      have k1 : (2 * m0 + 1) ^ 2 + 4 * m0 + 3 = 4 * ((m0 + 1) * (m0 + 1)) := by
        ring
      have k2 : 4 * ((m0 + 1) * (m0 + 1)) < 4 * (v * 4 ^ d) + 4 * (m0 + 1) := by
        linarith
      have k3 : (m0 + 1) * (m0 + 1) = (s + 1) * (s + 1) * 4 ^ d := by
        rw [hedge, h4d]; ring
      have k4 : 4 * (v * 4 ^ d) + 4 * 4 ^ d ≤ 4 * ((s + 1) * (s + 1) * 4 ^ d) := by
        have hv1 : v + 1 ≤ (s + 1) * (s + 1) := Nat.lt_succ_sqrt v
        calc 4 * (v * 4 ^ d) + 4 * 4 ^ d = 4 * ((v + 1) * 4 ^ d) := by ring
          _ ≤ 4 * ((s + 1) * (s + 1) * 4 ^ d) := by
            refine Nat.mul_le_mul_left _ (Nat.mul_le_mul_right _ hv1)
      have k5 : 4 * 4 ^ d < 4 * (m0 + 1) := by
        rw [k3] at k2
        linarith
      have k6 : 2 ^ d * 2 ^ d < (s + 1) * 2 ^ d := by
        rw [← h4d]
        have := k5
        rw [hedge] at this
        omega
      have k7 : 2 ^ d < s + 1 := (Nat.mul_lt_mul_right hDpos).1 k6
      omega
    · refine Nat.div_eq_of_lt_le ?_ ?_
      · exact Nat.le_succ_of_le hm0lo
      · omega
  · rw [if_neg hup]
    exact Nat.div_eq_of_lt_le hm0lo hm0hi

/-- The double nearest to `(2^53+1)^2` drops the low bit. -/
theorem floatRound_big : Elf.floatRound ((2 ^ 53 + 1) ^ 2) = 2 ^ 106 + 2 ^ 54 := by
  have hnum : ((2 : Nat) ^ 53 + 1) ^ 2 = 2 ^ 106 + 2 ^ 54 + 1 := by norm_num
  have hlog : Nat.log2 (2 ^ 106 + 2 ^ 54 + 1) = 106 := by
    have hle : 106 ≤ Nat.log2 (2 ^ 106 + 2 ^ 54 + 1) :=
      (Nat.le_log2 (by norm_num)).2 (by norm_num)
    have hlt : Nat.log2 (2 ^ 106 + 2 ^ 54 + 1) < 107 :=
      (Nat.log2_lt (by norm_num)).2 (by norm_num)
    omega
  rw [hnum, Elf.floatRound, if_neg (by norm_num), hlog]
  show Elf.roundHalfEven (2 ^ 106 + 2 ^ 54 + 1) (106 - 52) * 2 ^ (106 - 52) = _
  rw [Elf.roundHalfEven]
  norm_num

/-- The correctly rounded double square root of that double truncates to
`2^53`, one below the integer square root `2^53 + 1`. -/
theorem pySqrtFloor_big : Elf.pySqrtFloor (2 ^ 106 + 2 ^ 54) = 2 ^ 53 := by
  have hs : Nat.sqrt (2 ^ 106 + 2 ^ 54) = 2 ^ 53 := by
    have hle : 2 ^ 53 ≤ Nat.sqrt (2 ^ 106 + 2 ^ 54) :=
      Nat.le_sqrt.2 (by norm_num)
    have hlt : Nat.sqrt (2 ^ 106 + 2 ^ 54) < 2 ^ 53 + 1 :=
      Nat.sqrt_lt.2 (by norm_num)
    omega
  have hj : Nat.log2 (2 ^ 53) = 53 := by
    have hle : 53 ≤ Nat.log2 ((2 : Nat) ^ 53) :=
      (Nat.le_log2 (by norm_num)).2 (by norm_num)
    have hlt : Nat.log2 ((2 : Nat) ^ 53) < 54 :=
      (Nat.log2_lt (by norm_num)).2 (by norm_num)
    omega
  simp only [Elf.pySqrtFloor, hs, hj]
  norm_num

/-- `float(2^1024)` overflows: the rounded value reaches `2^1024`. -/
theorem floatRound_overflow : Elf.floatRound (2 ^ 1024) = 2 ^ 1024 := by
  have hlog : Nat.log2 ((2 : Nat) ^ 1024) = 1024 := by
    have hle : 1024 ≤ Nat.log2 ((2 : Nat) ^ 1024) :=
      (Nat.le_log2 (by norm_num)).2 (by norm_num)
    have hlt : Nat.log2 ((2 : Nat) ^ 1024) < 1025 :=
      (Nat.log2_lt (by norm_num)).2 (by norm_num)
    omega
  rw [Elf.floatRound, if_neg (by norm_num), hlog]
  show Elf.roundHalfEven (2 ^ 1024) (1024 - 52) * 2 ^ (1024 - 52) = _
  rw [Elf.roundHalfEven]
  norm_num

/-- Counterexample for C6: at `num = (2^53 + 1)^2` the float square-root
bound `int(num**0.5) = 2^53` falls one short of the integer square root, so
`get_factors` returns a set missing the divisor `2^53 + 1`; and at
`num = 2^1024` the conversion to double raises `OverflowError` instead of
returning the divisors. -/
theorem get_factors_counterexample :
    1 ≤ 2 ^ 53 + 1 ∧ (2 ^ 53 + 1) ∣ (2 ^ 53 + 1) ^ 2 ∧
    (Elf.get_factors ((2 ^ 53 + 1) ^ 2)).isSome = true ∧
    (∀ factors ∈ Elf.get_factors ((2 ^ 53 + 1) ^ 2),
      (2 ^ 53 + 1) ∉ factors) ∧
    Elf.get_factors (2 ^ 1024) = none := by
  have hbound : Elf.pyIntSqrt ((2 ^ 53 + 1) ^ 2) = 2 ^ 53 := by
    rw [Elf.pyIntSqrt, floatRound_big, pySqrtFloor_big]
  have hval : Elf.get_factors ((2 ^ 53 + 1) ^ 2) =
      some ((List.range' 1 (2 ^ 53)).foldl
        (fun factors i =>
          if (2 ^ 53 + 1) ^ 2 % i = 0 then
            insert ((2 ^ 53 + 1) ^ 2 / i) (insert i factors)
          else factors) ∅) := by
    rw [Elf.get_factors, if_neg (by rw [floatRound_big]; norm_num), hbound]
  refine ⟨by norm_num, ⟨2 ^ 53 + 1, by ring⟩, by rw [hval]; rfl, ?_, ?_⟩
  · intro factors hmem hin
    rw [hval, Option.mem_def, Option.some_inj] at hmem
    rw [← hmem, get_factors_foldl_mem] at hin
    rcases hin with hin | ⟨i, hi, hdvd, hcase⟩
    · exact absurd hin (Finset.not_mem_empty _)
    · rw [List.mem_range'_1] at hi
      rcases hcase with hcase | hcase
      · omega
      · have hidvd : i ∣ (2 ^ 53 + 1) ^ 2 := Nat.dvd_of_mod_eq_zero hdvd
        have hcancel : i * ((2 ^ 53 + 1) ^ 2 / i) = (2 ^ 53 + 1) ^ 2 :=
          Nat.mul_div_cancel' hidvd
        rw [← hcase] at hcancel
        have hi_eq : i = 2 ^ 53 + 1 := by
          have hsq : (2 ^ 53 + 1) ^ 2 = (2 ^ 53 + 1) * (2 ^ 53 + 1) := by ring
          rw [hsq] at hcancel
          exact Nat.eq_of_mul_eq_mul_right (by norm_num) hcancel
        omega
  · rw [Elf.get_factors, if_pos (by rw [floatRound_overflow])]

/-- C6 as amended: for `1 ≤ num < 2^52` (where the float square-root bound
is exact) `get_factors num` returns exactly the set of positive divisors of
`num`; beyond that range the program can miss divisors (`(2^53+1)^2`) or
raise `OverflowError` (`2^1024`). -/
theorem get_factors_amended (num : Nat) (h1 : 1 ≤ num) (h2 : num < 2 ^ 52) :
    ∃ factors, Elf.get_factors num = some factors ∧
      ∀ d, d ∈ factors ↔ (1 ≤ d ∧ d ∣ num) := by
  have hfr : Elf.floatRound num = num :=
    floatRound_small num (by calc num < 2 ^ 52 := h2
      _ ≤ 2 ^ 53 := by norm_num)
  have hbound : Elf.pyIntSqrt num = Nat.sqrt num := by
    rw [Elf.pyIntSqrt, hfr, pySqrtFloor_small num h1 h2]
  have hno : ¬ (2 ^ 1024 ≤ Elf.floatRound num) := by
    rw [hfr]
    have hlt : num < 2 ^ 1024 := by
      calc num < 2 ^ 52 := h2
        _ < 2 ^ 1024 := by norm_num
    omega
  have hval : Elf.get_factors num =
      some ((List.range' 1 (Nat.sqrt num)).foldl
        (fun factors i =>
          if num % i = 0 then insert (num / i) (insert i factors)
          else factors) ∅) := by
    rw [Elf.get_factors, if_neg hno, hbound]
  refine ⟨_, hval, fun d => ?_⟩
  rw [get_factors_foldl_mem]
  simp only [Finset.not_mem_empty, false_or, List.mem_range'_1]
  constructor
  · rintro ⟨i, ⟨hi1, _⟩, hmod, hd | hd⟩ <;> subst hd
    · exact ⟨hi1, Nat.dvd_of_mod_eq_zero hmod⟩
    · have hdvd := Nat.dvd_of_mod_eq_zero hmod
      refine ⟨?_, Nat.div_dvd_of_dvd hdvd⟩
      exact Nat.one_le_div_iff (by omega) |>.2 (Nat.le_of_dvd (by omega) hdvd)
  · rintro ⟨hd1, hdvd⟩
    have hdnum : d ≤ num := Nat.le_of_dvd (by omega) hdvd
    by_cases hle : d ≤ Nat.sqrt num
    · exact ⟨d, ⟨hd1, by omega⟩, Nat.mod_eq_zero_of_dvd hdvd, Or.inl rfl⟩
    · push_neg at hle
      have hq : num / d ∣ num := Nat.div_dvd_of_dvd hdvd
      have hq1 : 1 ≤ num / d := Nat.one_le_div_iff (by omega) |>.2 hdnum
      have hqd : num / d < d := by
        have hlt : num < d * d := by
          have := Nat.sqrt_lt.1 hle
          omega
        have := Nat.div_mul_cancel hdvd
        by_contra hcon
        push_neg at hcon
        have : d * d ≤ num / d * d := Nat.mul_le_mul_right d hcon
        omega
      have hqsqrt : num / d ≤ Nat.sqrt num := by
        rw [Nat.le_sqrt]
        calc num / d * (num / d) ≤ num / d * d := by
              exact Nat.mul_le_mul_left _ (by omega)
          _ = num := Nat.div_mul_cancel hdvd
      refine ⟨num / d, ⟨hq1, by omega⟩, Nat.mod_eq_zero_of_dvd hq, Or.inr ?_⟩
      rw [Nat.div_div_self hdvd (by omega)]

/-- Witness for C6 as amended, at `num = 8` (where the factors are
`{1, 2, 4, 8}`). -/
theorem get_factors_amended_witness :
    1 ≤ 8 ∧ 8 < 2 ^ 52 ∧
    ∃ factors, Elf.get_factors 8 = some factors ∧
      ∀ d, d ∈ factors ↔ (1 ≤ d ∧ d ∣ 8) :=
  ⟨by norm_num, by norm_num, get_factors_amended 8 (by norm_num) (by norm_num)⟩

/-! ## C7: termination of `part2` of the 2018 day-1 script -/

/-- One more delta extends the cumulative frequency by the next cycled
element. -/
theorem psum_succ (data : List Int) (k : Nat) :
    Y18D01.psum data (k + 1) =
      Y18D01.psum data k + data.getD (k % data.length) 0 :=
  Finset.sum_range_succ _ _

/-- One more loop iteration inserts the next cumulative frequency into the
seen set. -/
theorem seenF_succ (data : List Int) (i : Nat) :
    Y18D01.seenF data (i + 1) =
      insert (Y18D01.psum data (i + 1)) (Y18D01.seenF data i) := by
  rw [Y18D01.seenF, Y18D01.seenF, Finset.range_succ, Finset.image_insert]

/-- Summing the first `data.length` positional reads gives the list sum. -/
theorem sum_range_getD (data : List Int) :
    (Finset.range data.length).sum (fun j => data.getD j 0) = data.sum := by
  induction data with
  | nil => simp
  | cons d rest ih =>
    rw [List.length_cons, Finset.sum_range_succ']
    simp only [List.getD_cons_succ, List.getD_cons_zero, List.sum_cons]
    rw [ih]
    ring

/-- After one full cycle the cumulative frequency is the list sum. -/
theorem psum_length (data : List Int) :
    Y18D01.psum data data.length = data.sum := by
  rw [Y18D01.psum, ← sum_range_getD data]
  refine Finset.sum_congr rfl fun j hj => ?_
  rw [Nat.mod_eq_of_lt (Finset.mem_range.1 hj)]

/-- If some cumulative frequency within the next `fuel` steps repeats an
earlier one, the loop of `part2` breaks and returns it. -/
theorem y18_run (data : List Int) : ∀ (fuel i : Nat),
    (∃ m, i < m ∧ m ≤ i + fuel ∧
      Y18D01.psum data m ∈ Y18D01.seenF data (m - 1)) →
    Y18D01.part2Go data fuel i (Y18D01.psum data i) (Y18D01.seenF data i) ≠
      none := by
  intro fuel
  induction fuel with
  | zero => rintro i ⟨m, h1, h2, _⟩; omega
  | succ fuel ih =>
    rintro i hm
    rw [Y18D01.part2Go]
    simp only [← psum_succ]
    by_cases hmem : Y18D01.psum data (i + 1) ∈ Y18D01.seenF data i
    · simp [hmem]
    · rw [if_neg hmem, ← seenF_succ]
      refine ih (i + 1) ?_
      rcases hm with ⟨m, h1, h2, h3⟩
      rcases Nat.eq_or_lt_of_le (Nat.succ_le_of_lt h1) with he | hl
      · exact absurd (by simpa [← he] using h3) hmem
      · exact ⟨m, hl, by omega, h3⟩

/-- The state of `part2` on input `[1]` after `k` iterations: the frequency
is `k` and the seen set is `{1, …, k}`; the loop never breaks. -/
theorem y18_nonterm_aux : ∀ (fuel k : Nat),
    Y18D01.part2Go [1] fuel k (k : Int) (Finset.Icc 1 (k : Int)) = none := by
  intro fuel
  induction fuel with
  | zero => intro k; rfl
  | succ fuel ih =>
    intro k
    rw [Y18D01.part2Go]
    have hgd : [(1 : Int)].getD (k % [(1 : Int)].length) 0 = 1 := by
      simp [Nat.mod_one]
    rw [hgd]
    rw [if_neg (by simp [Finset.mem_Icc])]
    have hins : insert ((k : Int) + 1) (Finset.Icc 1 (k : Int)) =
        Finset.Icc 1 ((k : Int) + 1) := by
      refine Finset.ext fun x => ?_
      simp only [Finset.mem_insert, Finset.mem_Icc]
      omega
    rw [hins]
    have := ih (k + 1)
    push_cast at this
    exact this

/-- Counterexample for C7: on the well-formed non-empty delta list `[+1]`
the loop of `part2` never sees a repeated cumulative frequency, so it never
terminates (it returns no answer no matter how long it runs). -/
theorem c7_counterexample :
    ¬ ∃ (fuel : Nat) (r : Int), Y18D01.part2 [1] fuel = some r := by
  rintro ⟨fuel, r, h⟩
  have haux := y18_nonterm_aux fuel 0
  rw [Y18D01.part2] at h
  have hicc : Finset.Icc (1 : Int) ((0 : Nat) : Int) = ∅ := by decide
  rw [hicc] at haux
  simp only [Nat.cast_zero] at haux
  rw [haux] at h
  exact Option.noConfusion h

/-- C7 as amended: `part2` of the 2018 day-1 script terminates on every
non-empty delta list whose sum is zero (within `length + 1` loop
iterations); it does not terminate on every non-empty list, e.g. not on
`[+1]`. -/
theorem c7_amended (data : List Int) (hne : data ≠ [])
    (hsum : data.sum = 0) :
    ∃ r, Y18D01.part2 data (data.length + 1) = some r := by
  have hlen : 1 ≤ data.length := by
    cases data with
    | nil => exact absurd rfl hne
    | cons d rest => simp
  have hcol : Y18D01.psum data (data.length + 1) ∈
      Y18D01.seenF data data.length := by
    have h1 : Y18D01.psum data (data.length + 1) = Y18D01.psum data 1 := by
      rw [psum_succ, Nat.mod_self, psum_length, hsum]
      rw [show (1 : Nat) = 0 + 1 from rfl, psum_succ]
      simp [Y18D01.psum]
    rw [h1]
    exact Finset.mem_image.2 ⟨0, Finset.mem_range.2 (by omega), rfl⟩
  have hrun := y18_run data (data.length + 1) 0
    ⟨data.length + 1, by omega, by omega, by simpa using hcol⟩
  have h0 : Y18D01.psum data 0 = 0 := rfl
  have hs0 : Y18D01.seenF data 0 = ∅ := rfl
  rw [h0, hs0] at hrun
  rw [Y18D01.part2]
  exact Option.ne_none_iff_exists'.1 hrun

/-- Witness for C7 as amended, at the sample delta list `[+1, -2, +3, -2]`
(non-empty, zero sum). -/
theorem c7_amended_witness :
    ([(1 : Int), -2, 3, -2] ≠ []) ∧ ([(1 : Int), -2, 3, -2].sum = 0) ∧
    ∃ r, Y18D01.part2 [1, -2, 3, -2] ([(1 : Int), -2, 3, -2].length + 1) = some r :=
  ⟨by decide, by decide, c7_amended [1, -2, 3, -2] (by decide) (by decide)⟩

/-! ## C4: `merge_intervals` and `part2` of `d05.py` -/

instance : IsTotal (Int × Int) D05.lexLe :=
  ⟨by intro p q; simp only [D05.lexLe]; omega⟩

instance : IsTrans (Int × Int) D05.lexLe :=
  ⟨by intro p q r; simp only [D05.lexLe]; omega⟩

/-- Membership in the covered-ID set. -/
theorem covered_mem (ranges : List (Int × Int)) (x : Int) :
    x ∈ D05.covered ranges ↔ ∃ p ∈ ranges, p.1 ≤ x ∧ x ≤ p.2 := by
  induction ranges with
  | nil => simp [D05.covered]
  | cons r rest ih =>
    simp only [D05.covered, List.foldr_cons, Finset.mem_union, Finset.mem_Icc,
      List.mem_cons]
    rw [show rest.foldr (fun p s => Finset.Icc p.1 p.2 ∪ s) ∅ = D05.covered rest from rfl]
    rw [ih]
    constructor
    · rintro (h | ⟨p, hp, hx⟩)
      · exact ⟨r, Or.inl rfl, h⟩
      · exact ⟨p, Or.inr hp, hx⟩
    · rintro ⟨p, hp | hp, hx⟩
      · subst hp; exact Or.inl hx
      · exact Or.inr ⟨p, hp, hx⟩

/-- The stack loop of `merge_intervals`: given sorted, well-formed input it
produces separated well-formed intervals covering the same IDs. -/
theorem mergeLoop_spec : ∀ (rest : List (Int × Int)) (top : Int × Int),
    top.1 ≤ top.2 → (∀ p ∈ rest, p.1 ≤ p.2) → (∀ p ∈ rest, top.1 ≤ p.1) →
    rest.Pairwise (fun p q => p.1 ≤ q.1) →
    (∀ q ∈ D05.mergeLoop top rest, top.1 ≤ q.1 ∧ q.1 ≤ q.2) ∧
    (D05.mergeLoop top rest).Pairwise (fun p q => p.2 < q.1) ∧
    (∀ x : Int, (∃ q ∈ D05.mergeLoop top rest, q.1 ≤ x ∧ x ≤ q.2) ↔
      ((top.1 ≤ x ∧ x ≤ top.2) ∨ ∃ p ∈ rest, p.1 ≤ x ∧ x ≤ p.2)) := by
  intro rest
  induction rest with
  | nil =>
    intro top htop _ _ _
    refine ⟨?_, ?_, ?_⟩
    · intro q hq
      rw [D05.mergeLoop, List.mem_singleton] at hq
      subst hq; exact ⟨le_refl _, htop⟩
    · exact List.pairwise_singleton _ _
    · intro x; simp [D05.mergeLoop]
  | cons iv rest ih =>
    intro top htop hwf hstart hsorted
    have hiv : iv.1 ≤ iv.2 := hwf iv (by simp)
    have htopiv : top.1 ≤ iv.1 := hstart iv (by simp)
    have hrest_wf : ∀ p ∈ rest, p.1 ≤ p.2 := fun p hp => hwf p (by simp [hp])
    have hhead : ∀ p ∈ rest, iv.1 ≤ p.1 := (List.pairwise_cons.1 hsorted).1
    have htail : rest.Pairwise (fun p q => p.1 ≤ q.1) :=
      (List.pairwise_cons.1 hsorted).2
    rw [D05.mergeLoop]
    by_cases hc : top.1 ≤ iv.1 ∧ iv.1 ≤ top.2
    · rw [if_pos hc]
      have hres := ih (top.1, max top.2 iv.2) (by simp; omega) hrest_wf
        (fun p hp => hstart p (by simp [hp])) htail
      refine ⟨hres.1, hres.2.1, fun x => ?_⟩
      rw [hres.2.2 x]
      simp only [List.mem_cons]
      constructor
      · rintro (h | h)
        · rcases le_or_lt x top.2 with hx | hx
          · exact Or.inl ⟨h.1, hx⟩
          · refine Or.inr ⟨iv, Or.inl rfl, ?_, ?_⟩ <;> omega
        · exact Or.inr (by rcases h with ⟨p, hp, hx⟩; exact ⟨p, Or.inr hp, hx⟩)
      · rintro (h | ⟨p, hp | hp, hx⟩)
        · exact Or.inl (by constructor <;> omega)
        · subst hp; exact Or.inl (by constructor <;> omega)
        · exact Or.inr ⟨p, hp, hx⟩
    · rw [if_neg hc]
      have hgap : top.2 < iv.1 := by omega
      have hres := ih iv hiv hrest_wf hhead htail
      refine ⟨?_, ?_, fun x => ?_⟩
      · intro q hq
        rcases List.mem_cons.1 hq with hq | hq
        · subst hq; exact ⟨le_refl _, htop⟩
        · have := hres.1 q hq
          constructor <;> omega
      · refine List.pairwise_cons.2 ⟨fun q hq => ?_, hres.2.1⟩
        have := hres.1 q hq
        omega
      · simp only [List.mem_cons]
        rw [show (∃ q, (q = top ∨ q ∈ D05.mergeLoop iv rest) ∧ q.1 ≤ x ∧ x ≤ q.2) ↔
            ((top.1 ≤ x ∧ x ≤ top.2) ∨ ∃ q ∈ D05.mergeLoop iv rest, q.1 ≤ x ∧ x ≤ q.2) from by
          constructor
          · rintro ⟨q, hq | hq, hx⟩
            · subst hq; exact Or.inl hx
            · exact Or.inr ⟨q, hq, hx⟩
          · rintro (h | ⟨q, hq, hx⟩)
            · exact ⟨top, Or.inl rfl, h⟩
            · exact ⟨q, Or.inr hq, hx⟩]
        rw [hres.2.2 x]
        constructor
        · rintro (h | h | ⟨p, hp, hx⟩)
          · exact Or.inl h
          · exact Or.inr ⟨iv, Or.inl rfl, h⟩
          · exact Or.inr ⟨p, Or.inr hp, hx⟩
        · rintro (h | ⟨p, hp | hp, hx⟩)
          · exact Or.inl h
          · subst hp; exact Or.inr (Or.inl hx)
          · exact Or.inr (Or.inr ⟨p, hp, hx⟩)

/-- For separated well-formed intervals, the interval lengths sum to the
size of the covered set. -/
theorem card_of_separated : ∀ (m : List (Int × Int)),
    (∀ p ∈ m, p.1 ≤ p.2) → m.Pairwise (fun p q => p.2 < q.1) →
    ((D05.covered m).card : Int) = (m.map (fun p => p.2 - p.1 + 1)).sum := by
  intro m
  induction m with
  | nil => simp [D05.covered]
  | cons p rest ih =>
    intro hwf hsep
    have hp : p.1 ≤ p.2 := hwf p (by simp)
    have hcov : D05.covered (p :: rest) = Finset.Icc p.1 p.2 ∪ D05.covered rest := rfl
    have hdisj : Disjoint (Finset.Icc p.1 p.2) (D05.covered rest) := by
      rw [Finset.disjoint_left]
      intro x hx hxr
      rcases (covered_mem rest x).1 hxr with ⟨q, hq, hxq⟩
      have hlt := (List.pairwise_cons.1 hsep).1 q hq
      rw [Finset.mem_Icc] at hx
      omega
    rw [hcov, List.map_cons, List.sum_cons,
      Finset.card_union_of_disjoint hdisj]
    push_cast
    rw [ih (fun q hq => hwf q (by simp [hq])) (List.pairwise_cons.1 hsep).2]
    simp only [Int.card_Icc]
    omega

/-- C4: for every non-empty list of inclusive ranges `[start, end]` with
`start ≤ end`, `merge_intervals` returns pairwise non-overlapping ranges
covering exactly the IDs covered by the input, and `part2` (the sum of
`end - start + 1` over the merged ranges) is the number of distinct IDs
covered by at least one input range. -/
theorem merge_intervals_spec (l : List (Int × Int)) (hne : l ≠ [])
    (hwf : ∀ p ∈ l, p.1 ≤ p.2) :
    ((D05.merge_intervals l).Pairwise fun p q =>
      ∀ x : Int, ¬(p.1 ≤ x ∧ x ≤ p.2 ∧ q.1 ≤ x ∧ x ≤ q.2)) ∧
    (∀ x : Int, (∃ p ∈ D05.merge_intervals l, p.1 ≤ x ∧ x ≤ p.2) ↔
      ∃ p ∈ l, p.1 ≤ x ∧ x ≤ p.2) ∧
    D05.part2 l = ((D05.covered l).card : Int) := by
  rcases hs : List.insertionSort D05.lexLe l with _ | ⟨first, rest⟩
  · exact absurd (hs ▸ List.perm_insertionSort D05.lexLe l).symm.eq_nil hne
  have hperm : List.Perm (first :: rest) l := hs ▸ List.perm_insertionSort D05.lexLe l
  have hsorted : List.Sorted D05.lexLe (first :: rest) :=
    hs ▸ List.sorted_insertionSort D05.lexLe l
  have hwf' : ∀ p ∈ first :: rest, p.1 ≤ p.2 := fun p hp => hwf p (hperm.mem_iff.1 hp)
  have hfirst : first.1 ≤ first.2 := hwf' first (by simp)
  have hrest_wf : ∀ p ∈ rest, p.1 ≤ p.2 := fun p hp => hwf' p (by simp [hp])
  have hstart : ∀ p ∈ rest, first.1 ≤ p.1 := by
    intro p hp
    have := (List.pairwise_cons.1 hsorted).1 p hp
    rcases this with h | h
    · omega
    · omega
  have hsorted_starts : rest.Pairwise (fun p q => p.1 ≤ q.1) := by
    refine List.Pairwise.imp ?_ (List.pairwise_cons.1 hsorted).2
    intro p q hpq
    rcases hpq with h | h
    · omega
    · omega
  have hmerge : D05.merge_intervals l = D05.mergeLoop first rest := by
    rw [D05.merge_intervals, hs]
  have hres := mergeLoop_spec rest first hfirst hrest_wf hstart hsorted_starts
  have hcov_iff : ∀ x : Int,
      (∃ p ∈ D05.merge_intervals l, p.1 ≤ x ∧ x ≤ p.2) ↔
        ∃ p ∈ l, p.1 ≤ x ∧ x ≤ p.2 := by
    intro x
    rw [hmerge, hres.2.2 x]
    constructor
    · rintro (h | ⟨p, hp, hx⟩)
      · exact ⟨first, hperm.mem_iff.1 (by simp), h⟩
      · exact ⟨p, hperm.mem_iff.1 (by simp [hp]), hx⟩
    · rintro ⟨p, hp, hx⟩
      rcases List.mem_cons.1 (hperm.mem_iff.2 hp) with hp' | hp'
      · subst hp'; exact Or.inl hx
      · exact Or.inr ⟨p, hp', hx⟩
  refine ⟨?_, hcov_iff, ?_⟩
  · rw [hmerge]
    refine List.Pairwise.imp ?_ hres.2.1
    intro p q hpq x
    rintro ⟨h1, h2, h3, h4⟩
    omega
  · have hmwf : ∀ p ∈ D05.merge_intervals l, p.1 ≤ p.2 :=
      fun p hp => ((hmerge ▸ hres.1) p hp).2
    have hmsep : (D05.merge_intervals l).Pairwise (fun p q => p.2 < q.1) :=
      hmerge ▸ hres.2.1
    have hcovered_eq : D05.covered (D05.merge_intervals l) = D05.covered l := by
      refine Finset.ext fun x => ?_
      rw [covered_mem, covered_mem]
      exact hcov_iff x
    rw [D05.part2, ← card_of_separated _ hmwf hmsep, hcovered_eq]

/-- Witness for C4, at the sample ranges of `d05.py` (where the merged
ranges cover 14 IDs). -/
theorem merge_intervals_spec_witness :
    ([((3 : Int), (5 : Int)), (10, 14), (16, 20), (12, 18)] ≠ []) ∧
    (∀ p ∈ [((3 : Int), (5 : Int)), (10, 14), (16, 20), (12, 18)], p.1 ≤ p.2) ∧
    D05.part2 [((3 : Int), (5 : Int)), (10, 14), (16, 20), (12, 18)] =
      ((D05.covered [((3 : Int), (5 : Int)), (10, 14), (16, 20), (12, 18)]).card : Int) :=
  ⟨by decide, by decide,
    (merge_intervals_spec _ (by decide) (by decide)).2.2⟩

/-! ## C9: `part2` of the 2018 day-3 script -/

/-- The incremented array equals the per-cell cover count on in-grid
cells. -/
theorem buildArray_go (claims : List Y18D03.Claim) :
    ∀ (a : (Nat × Nat) → Nat) (p : Nat × Nat),
    claims.foldl
      (fun a c => fun p =>
        if Y18D03.inGrid p ∧ Y18D03.inRect c p then a p + 1 else a p) a p =
      if Y18D03.inGrid p then a p + Y18D03.coverCount claims p else a p := by
  induction claims with
  | nil => intro a p; simp [Y18D03.coverCount]
  | cons c rest ih =>
    intro a p
    rw [List.foldl_cons, ih]
    have hcc : Y18D03.coverCount (c :: rest) p =
        (if Y18D03.inRect c p then 1 else 0) + Y18D03.coverCount rest p := by
      rw [Y18D03.coverCount, Y18D03.coverCount, List.filter_cons]
      by_cases h : Y18D03.inRect c p <;> simp [h] <;> omega
    rw [hcc]
    by_cases hg : Y18D03.inGrid p <;> by_cases hr : Y18D03.inRect c p <;>
      simp [hg, hr] <;> omega

/-- `buildArray` counts, at each in-grid cell, the claims covering it. -/
theorem buildArray_eq (claims : List Y18D03.Claim) (p : Nat × Nat)
    (hg : Y18D03.inGrid p) :
    Y18D03.buildArray claims p = Y18D03.coverCount claims p := by
  rw [Y18D03.buildArray, buildArray_go, if_pos hg]
  omega

/-- The cells of a claim's rectangle. -/
theorem mem_rectCells (c : Y18D03.Claim) (p : Nat × Nat) :
    p ∈ Y18D03.rectCells c ↔ Y18D03.inRect c p := by
  rw [Y18D03.rectCells, Y18D03.inRect]
  simp only [List.mem_flatMap, List.mem_map, List.mem_range]
  constructor
  · rintro ⟨dx, hdx, dy, hdy, rfl⟩
    constructor <;> omega
  · rintro ⟨h1, h2, h3, h4⟩
    exact ⟨p.1 - c.x, by omega, p.2 - c.y, by omega, by
      rcases p with ⟨p1, p2⟩
      simp only [Prod.mk.injEq]
      constructor <;> simp only at h1 h2 h3 h4 <;> omega⟩

/-- For a claim inside the grid, the boolean slice test of `part2` holds
exactly when every cell of the claim's rectangle is covered exactly once. -/
theorem check_iff_clean (claims : List Y18D03.Claim) (c : Y18D03.Claim)
    (hc : c.x + c.width ≤ 1000 ∧ c.y + c.height ≤ 1000) :
    (((Y18D03.rectCells c).filter (fun p => decide (Y18D03.inGrid p))).all
      (fun p => Y18D03.buildArray claims p == 1)) = true ↔
      Y18D03.CleanClaim claims c := by
  have hfil : (Y18D03.rectCells c).filter (fun p => decide (Y18D03.inGrid p)) =
      Y18D03.rectCells c := by
    refine List.filter_eq_self.2 fun p hp => ?_
    have := (mem_rectCells c p).1 hp
    rw [Y18D03.inRect] at this
    simp only [decide_eq_true_eq, Y18D03.inGrid]
    omega
  rw [hfil, List.all_eq_true, Y18D03.CleanClaim]
  constructor
  · intro h p hp
    have hg : Y18D03.inGrid p := by
      have := (mem_rectCells c p).1 hp
      rw [Y18D03.inRect] at this
      constructor <;> omega
    have := h p hp
    rw [buildArray_eq claims p hg] at this
    simpa using this
  · intro h p hp
    have hg : Y18D03.inGrid p := by
      have := (mem_rectCells c p).1 hp
      rw [Y18D03.inRect] at this
      constructor <;> omega
    rw [buildArray_eq claims p hg, h p hp]
    rfl

/-- `findClean` returns `none` exactly when no claim passes the test. -/
theorem findClean_none (a : (Nat × Nat) → Nat) : ∀ (cs : List Y18D03.Claim),
    Y18D03.findClean a cs = none ↔
      ∀ c ∈ cs,
        ¬(((Y18D03.rectCells c).filter (fun p => decide (Y18D03.inGrid p))).all
          (fun p => a p == 1)) = true := by
  intro cs
  induction cs with
  | nil => simp [Y18D03.findClean]
  | cons c rest ih =>
    rw [Y18D03.findClean]
    by_cases h : (((Y18D03.rectCells c).filter
        (fun p => decide (Y18D03.inGrid p))).all (fun p => a p == 1)) = true
    · rw [if_pos h]
      constructor
      · intro habs; exact Option.noConfusion habs
      · intro hall; exact absurd h (hall c (by simp))
    · simp only [h, if_false, Bool.false_eq_true, reduceIte, ih, List.mem_cons]
      constructor
      · rintro hall d (rfl | hd)
        · exact h
        · exact hall d hd
      · intro hall d hd
        exact hall d (Or.inr hd)

/-- `findClean` returns the id of the first claim passing the test. -/
theorem findClean_first (a : (Nat × Nat) → Nat) : ∀ (cs : List Y18D03.Claim)
    (i : Nat) (hi : i < cs.length),
    (((Y18D03.rectCells (cs.get ⟨i, hi⟩)).filter
      (fun p => decide (Y18D03.inGrid p))).all
        (fun p => a p == 1)) = true →
    (∀ j : Nat, (hj : j < i) →
      ¬(((Y18D03.rectCells (cs.get ⟨j, Nat.lt_trans hj hi⟩)).filter
        (fun p => decide (Y18D03.inGrid p))).all (fun p => a p == 1)) = true) →
    Y18D03.findClean a cs = some (cs.get ⟨i, hi⟩).claim_id := by
  intro cs
  induction cs with
  | nil => intro i hi; exact absurd hi (by simp)
  | cons c rest ih =>
    intro i hi hpass hfail
    cases i with
    | zero =>
      rw [Y18D03.findClean, if_pos (by simpa using hpass)]
      rfl
    | succ i =>
      have hc : ¬(((Y18D03.rectCells c).filter
          (fun p => decide (Y18D03.inGrid p))).all (fun p => a p == 1)) = true := by
        have := hfail 0 (Nat.succ_pos i)
        simpa using this
      rw [Y18D03.findClean, if_neg hc]
      have hi' : i < rest.length := by simpa using Nat.lt_of_succ_lt_succ hi
      refine (ih i hi' (by simpa using hpass) ?_).trans (by simp)
      intro j hj
      have := hfail (j + 1) (Nat.succ_lt_succ hj)
      simpa using this

/-- C9: for claims lying entirely within the 1000x1000 grid, `part2` of the
2018 day-3 script returns the id of the first claim (in input order) whose
entire rectangle is covered by exactly one claim, and raises
`AssertionError` (modelled as `none`) when no such claim exists. -/
theorem y18d03_part2_spec (claims : List Y18D03.Claim)
    (hgrid : ∀ c ∈ claims, c.x + c.width ≤ 1000 ∧ c.y + c.height ≤ 1000) :
    (Y18D03.part2 claims = none ↔
      ∀ c ∈ claims, ¬ Y18D03.CleanClaim claims c) ∧
    (∀ i : Nat, (hi : i < claims.length) →
      Y18D03.CleanClaim claims (claims.get ⟨i, hi⟩) →
      (∀ j : Nat, (hj : j < i) →
        ¬ Y18D03.CleanClaim claims (claims.get ⟨j, Nat.lt_trans hj hi⟩)) →
      Y18D03.part2 claims = some (claims.get ⟨i, hi⟩).claim_id) := by
  constructor
  · rw [Y18D03.part2, findClean_none]
    constructor
    · intro h c hc
      rw [← check_iff_clean claims c (hgrid c hc)]
      exact h c hc
    · intro h c hc
      rw [check_iff_clean claims c (hgrid c hc)]
      exact h c hc
  · intro i hi hclean hfail
    rw [Y18D03.part2]
    refine findClean_first _ claims i hi ?_ ?_
    · rw [check_iff_clean claims _ (hgrid _ (claims.get_mem i hi))]
      exact hclean
    · intro j hj
      rw [check_iff_clean claims _ (hgrid _ (claims.get_mem j (Nat.lt_trans hj hi)))]
      exact hfail j hj

/-- Witness for C9, at the example claims of the docstring: claim 3 is the
first (and only) non-overlapping claim. -/
theorem y18d03_part2_spec_witness :
    (∀ c ∈ [Y18D03.Claim.mk 1 1 3 4 4, .mk 2 3 1 4 4, .mk 3 5 5 2 2],
      c.x + c.width ≤ 1000 ∧ c.y + c.height ≤ 1000) ∧
    Y18D03.part2 [Y18D03.Claim.mk 1 1 3 4 4, .mk 2 3 1 4 4, .mk 3 5 5 2 2] =
      some 3 := by
  refine ⟨by decide, ?_⟩
  have h := (y18d03_part2_spec
    [Y18D03.Claim.mk 1 1 3 4 4, .mk 2 3 1 4 4, .mk 3 5 5 2 2] (by decide)).2
    2 (by decide) (by decide) (by decide)
  exact h

/-! ## C5/C10: verification of the union-find `CircuitNetwork` -/

section UnionFind

variable {α : Type} [DecidableEq α]

/-- Iterating past a fixed point stays there. -/
theorem iterate_past_fix {f : α → α} {b : α} {k : Nat}
    (hfix : f (f^[k] b) = f^[k] b) :
    ∀ m, k ≤ m → f^[m] b = f^[k] b := by
  intro m hm
  obtain ⟨d, rfl⟩ := Nat.exists_eq_add_of_le hm
  induction d with
  | zero => rfl
  | succ d ih =>
    rw [show k + (d + 1) = (k + d) + 1 from rfl, Function.iterate_succ_apply',
      ih (by omega)]
    exact hfix

/-- A parent chain started in `S` stays in `S`. -/
theorem chain_in_S {S : Finset α} {f : α → α}
    (hcl : ∀ b ∈ S, f b ∈ S) {b : α} (hb : b ∈ S) :
    ∀ k, f^[k] b ∈ S := by
  intro k
  induction k with
  | zero => exact hb
  | succ k ih => rw [Function.iterate_succ_apply']; exact hcl _ ih

/-- The rank never increases along a parent chain. -/
theorem rk_chain {S : Finset α} {f : α → α} {rk : α → Nat}
    (hcl : ∀ b ∈ S, f b ∈ S)
    (hrk : ∀ b ∈ S, f b ≠ b → rk (f b) < rk b) {b : α} (hb : b ∈ S) :
    ∀ k, rk (f^[k] b) ≤ rk b := by
  intro k
  induction k with
  | zero => exact le_refl _
  | succ k ih =>
    rw [Function.iterate_succ_apply']
    by_cases hfix : f (f^[k] b) = f^[k] b
    · rw [hfix]; exact ih
    · exact le_of_lt (lt_of_lt_of_le (hrk _ (chain_in_S hcl hb k) hfix) ih)

/-- Acyclic parent chains inside a finite box set reach a fixed point in
fewer than `S.card` steps. -/
theorem reach_fix {S : Finset α} {f : α → α}
    (hcl : ∀ b ∈ S, f b ∈ S)
    (hrk : ∃ rk : α → Nat, ∀ b ∈ S, f b ≠ b → rk (f b) < rk b)
    {b : α} (hb : b ∈ S) :
    ∃ k < S.card, f^[k+1] b = f^[k] b := by
  obtain ⟨rk, hrk⟩ := hrk
  by_contra hcon
  push_neg at hcon
  have hstep : ∀ j, j < S.card → rk (f^[j+1] b) < rk (f^[j] b) := by
    intro j hj
    rw [Function.iterate_succ_apply']
    refine hrk _ (chain_in_S hcl hb j) ?_
    have := hcon j hj
    rw [Function.iterate_succ_apply'] at this
    exact this
  have hstrict : ∀ j d, j + d + 1 ≤ S.card → rk (f^[j + d + 1] b) < rk (f^[j] b) := by
    intro j d
    induction d with
    | zero => intro h; exact hstep j (by omega)
    | succ d ih =>
      intro h
      have h1 : rk (f^[j + d + 1 + 1] b) < rk (f^[j + d + 1] b) := hstep _ (by omega)
      have h2 := ih (by omega)
      have he : j + (d + 1) + 1 = j + d + 1 + 1 := by omega
      rw [he]
      exact lt_trans h1 h2
  have hinj : Set.InjOn (fun k => f^[k] b) ↑(Finset.range (S.card + 1)) := by
    intro j hj k hk heq
    simp only [Finset.coe_range, Set.mem_Iio] at hj hk
    simp only at heq
    by_contra hne
    rcases Nat.lt_or_ge j k with hlt | hge
    · obtain ⟨d, rfl⟩ := Nat.exists_eq_add_of_lt hlt
      have hs := hstrict j d (by omega)
      rw [← heq] at hs
      exact lt_irrefl _ hs
    · have hlt : k < j := by omega
      obtain ⟨d, rfl⟩ := Nat.exists_eq_add_of_lt hlt
      have hs := hstrict k d (by omega)
      rw [heq] at hs
      exact lt_irrefl _ hs
  have hcard := Finset.card_le_card_of_injOn (fun k => f^[k] b)
    (fun k _ => chain_in_S hcl hb k) hinj
  rw [Finset.card_range] at hcard
  omega

/-- A root of a chain is unique. -/
theorem root_unique {f : α → α} {b r r' : α}
    (h : D08.IsRootOf f b r) (h' : D08.IsRootOf f b r') : r = r' := by
  obtain ⟨hfix, k, hk⟩ := h
  obtain ⟨hfix', j, hj⟩ := h'
  rcases Nat.le_total k j with hle | hle
  · have := iterate_past_fix (k := k) (by rw [hk]; exact hk ▸ hfix) j hle
    rw [hj, hk] at this
    exact this.symm
  · have := iterate_past_fix (k := j) (by rw [hj]; exact hj ▸ hfix') k hle
    rw [hj, hk] at this
    exact this

/-- `rootD S.card f b` is a root of `b` for boxes in `S`. -/
theorem rootD_isRoot {S : Finset α} {f : α → α}
    (hcl : ∀ b ∈ S, f b ∈ S)
    (hrk : ∃ rk : α → Nat, ∀ b ∈ S, f b ≠ b → rk (f b) < rk b)
    {b : α} (hb : b ∈ S) :
    D08.IsRootOf f b (D08.rootD S.card f b) := by
  obtain ⟨k, hk, hfix⟩ := reach_fix hcl hrk hb
  have hfix' : f (f^[k] b) = f^[k] b := by
    rw [← Function.iterate_succ_apply' f k b]; exact hfix
  have hstable := iterate_past_fix (f := f) (b := b) (k := k) hfix'
  refine ⟨?_, S.card, rfl⟩
  rw [D08.rootD, hstable S.card (by omega)]
  exact hfix'

/-- Outside `S`, boxes are their own roots. -/
theorem rootD_outside {S : Finset α} {f : α → α}
    (hout : ∀ b ∉ S, f b = b) {b : α} (hb : b ∉ S) :
    D08.rootD S.card f b = b := by
  rw [D08.rootD]
  exact Function.iterate_fixed (hout b hb) _

/-- Every box in `S` has a root. -/
theorem root_exists {S : Finset α} {f : α → α}
    (hout : ∀ b ∉ S, f b = b) (hcl : ∀ b ∈ S, f b ∈ S)
    (hrk : ∃ rk : α → Nat, ∀ b ∈ S, f b ≠ b → rk (f b) < rk b)
    (b : α) : ∃ r, D08.IsRootOf f b r := by
  by_cases hb : b ∈ S
  · exact ⟨_, rootD_isRoot hcl hrk hb⟩
  · exact ⟨b, hout b hb, 0, rfl⟩

/-- A root of `b` is determined by `rootD` for boxes in `S`. -/
theorem root_eq_rootD {S : Finset α} {f : α → α}
    (hcl : ∀ b ∈ S, f b ∈ S)
    (hrk : ∃ rk : α → Nat, ∀ b ∈ S, f b ≠ b → rk (f b) < rk b)
    {b r : α} (hb : b ∈ S) (h : D08.IsRootOf f b r) :
    r = D08.rootD S.card f b :=
  root_unique h (rootD_isRoot hcl hrk hb)

/-- A non-trivial chain's root is the root of its next element. -/
theorem root_shift {f : α → α} {b r : α}
    (h : D08.IsRootOf f b r) (hne : f b ≠ b) : D08.IsRootOf f (f b) r := by
  obtain ⟨hfix, k, hk⟩ := h
  cases k with
  | zero => exact absurd (hk ▸ hfix) (by rw [show f^[0] b = b from rfl] at hk; rw [hk] at hne ⊢; exact hne)
  | succ k =>
    rw [Function.iterate_succ_apply] at hk
    exact ⟨hfix, k, hk⟩

/-- A chain's root is the root of its next element (other direction). -/
theorem root_unshift {f : α → α} {b r : α}
    (h : D08.IsRootOf f (f b) r) : D08.IsRootOf f b r := by
  obtain ⟨hfix, k, hk⟩ := h
  exact ⟨hfix, k + 1, by rwa [Function.iterate_succ_apply]⟩

/-- Pointing `b` directly at its root preserves every chain's root
(forward direction, by induction on the chain length). -/
theorem update_isRoot_forward {g : α → α} {b r : α}
    (hg : D08.IsRootOf g b r) :
    ∀ (k : Nat) (x y : α), g^[k] x = y → g y = y →
      D08.IsRootOf (Function.update g b r) x y := by
  have hfixg : g r = r := hg.1
  have hb_r : D08.IsRootOf (Function.update g b r) b r := by
    have h1 : Function.update g b r b = r := Function.update_same b r g
    have h2 : Function.update g b r r = r := by
      by_cases hrb : r = b
      · rw [hrb] at h1 ⊢; exact h1
      · rw [Function.update_noteq hrb]; exact hfixg
    exact ⟨h2, 1, by rw [Function.iterate_one]; exact h1⟩
  intro k
  induction k with
  | zero =>
    intro x y hxy hy
    rw [Function.iterate_zero_apply] at hxy
    subst hxy
    by_cases hxb : x = b
    · subst hxb
      have : r = x := root_unique hg ⟨hy, 0, rfl⟩
      subst this
      exact hb_r
    · exact ⟨by rw [Function.update_noteq hxb]; exact hy, 0, rfl⟩
  | succ k ih =>
    intro x y hxy hy
    rw [Function.iterate_succ_apply] at hxy
    by_cases hxb : x = b
    · subst hxb
      have hroot : D08.IsRootOf g x y :=
        ⟨hy, k + 1, by rw [Function.iterate_succ_apply]; exact hxy⟩
      have : r = y := root_unique hg hroot
      subst this
      exact hb_r
    · have htail := ih (g x) y hxy hy
      obtain ⟨hfix'', j, hj⟩ := htail
      refine ⟨hfix'', j + 1, ?_⟩
      rw [Function.iterate_succ_apply, Function.update_noteq hxb]
      exact hj

/-- Pointing `b` directly at its root changes no box's root. -/
theorem update_root_equiv {S : Finset α} {g : α → α}
    (hout : ∀ x ∉ S, g x = x) (hcl : ∀ x ∈ S, g x ∈ S)
    (hrk : ∃ rk : α → Nat, ∀ x ∈ S, g x ≠ x → rk (g x) < rk x)
    {b r : α} (hg : D08.IsRootOf g b r) :
    ∀ x y, D08.IsRootOf g x y ↔ D08.IsRootOf (Function.update g b r) x y := by
  intro x y
  constructor
  · rintro ⟨hy, k, hk⟩
    exact update_isRoot_forward hg k x y hk hy
  · intro h''
    obtain ⟨y', hy'⟩ := root_exists hout hcl hrk x
    obtain ⟨hyfix', k, hk⟩ := hy'
    have h2 := update_isRoot_forward hg k x y' hk hyfix'
    have : y = y' := root_unique h'' h2
    subst this
    exact ⟨hyfix', k, hk⟩

/-- Pointing `b` directly at its root preserves the state invariants, with
the same rank function. -/
theorem update_inv {S : Finset α} {g : α → α} {rk : α → Nat}
    (hout : ∀ x ∉ S, g x = x) (hcl : ∀ x ∈ S, g x ∈ S)
    (hrk : ∀ x ∈ S, g x ≠ x → rk (g x) < rk x)
    {b r : α} (hb : b ∈ S) (hg : D08.IsRootOf g b r) :
    (∀ x ∉ S, Function.update g b r x = x) ∧
    (∀ x ∈ S, Function.update g b r x ∈ S) ∧
    (∀ x ∈ S, Function.update g b r x ≠ x →
      rk (Function.update g b r x) < rk x) := by
  obtain ⟨hfixg, k, hk⟩ := hg
  have hrS : r ∈ S := hk ▸ chain_in_S hcl hb k
  refine ⟨?_, ?_, ?_⟩
  · intro x hx
    rw [Function.update_noteq (fun he => hx (by rw [he]; exact hb))]
    exact hout x hx
  · intro x hx
    by_cases hxb : x = b
    · subst hxb; rw [Function.update_same]; exact hrS
    · rw [Function.update_noteq hxb]; exact hcl x hx
  · intro x hx hne
    by_cases hxb : x = b
    · subst hxb
      rw [Function.update_same] at hne ⊢
      have hgb : g x ≠ x := by
        intro hfb
        have : r = x := root_unique ⟨hfixg, k, hk⟩ ⟨hfb, 0, rfl⟩
        exact hne this
      cases k with
      | zero => exact absurd hk.symm hne
      | succ k =>
        rw [Function.iterate_succ_apply] at hk
        have hchain : rk (g^[k] (g x)) ≤ rk (g x) :=
          rk_chain hcl hrk (hcl x hx) k
        rw [hk] at hchain
        exact lt_of_le_of_lt hchain (hrk x hx hgb)
    · rw [Function.update_noteq hxb] at hne ⊢
      exact hrk x hx hne

/-- Full specification of `findAux` with fuel: it returns the root of the
queried box and performs path compression, preserving every root, the
membership facts and the rank function. -/
theorem findAux_spec {S : Finset α} {f : α → α} {rk : α → Nat}
    (hout : ∀ b ∉ S, f b = b) (hcl : ∀ b ∈ S, f b ∈ S)
    (hrk : ∀ b ∈ S, f b ≠ b → rk (f b) < rk b) :
    ∀ (fuel : Nat) (b : α), b ∈ S → (∃ k < fuel, f^[k+1] b = f^[k] b) →
    D08.IsRootOf f b (D08.findAux fuel f b).2 ∧
    (∀ x y, D08.IsRootOf f x y ↔
      D08.IsRootOf (D08.findAux fuel f b).1 x y) ∧
    (∀ x, x ∉ S → (D08.findAux fuel f b).1 x = x) ∧
    (∀ x ∈ S, (D08.findAux fuel f b).1 x ∈ S) ∧
    (∀ x ∈ S, (D08.findAux fuel f b).1 x ≠ x →
      rk ((D08.findAux fuel f b).1 x) < rk x) := by
  intro fuel
  induction fuel with
  | zero => rintro b _ ⟨k, hk, _⟩; omega
  | succ fuel ih =>
    intro b hb hreach
    by_cases hfb : f b = b
    · rw [D08.findAux, if_pos hfb]
      exact ⟨⟨hfb, 0, rfl⟩, fun x y => Iff.rfl, hout, hcl, hrk⟩
    · have hreach' : ∃ k < fuel, f^[k+1] (f b) = f^[k] (f b) := by
        obtain ⟨k, hk, hfix⟩ := hreach
        cases k with
        | zero => exact absurd (by simpa using hfix) hfb
        | succ k =>
          refine ⟨k, by omega, ?_⟩
          rw [← Function.iterate_succ_apply f (k + 1) b,
            ← Function.iterate_succ_apply f k b]
          exact hfix
      have IH := ih (f b) (hcl b hb) hreach'
      rw [D08.findAux, if_neg hfb]
      simp only
      set p := D08.findAux fuel f (f b) with hp
      have hroot_b : D08.IsRootOf f b p.2 := root_unshift IH.1
      have hg'' : D08.IsRootOf p.1 b p.2 := (IH.2.1 b p.2).1 hroot_b
      refine ⟨hroot_b, ?_, ?_, ?_, ?_⟩
      · intro x y
        exact (IH.2.1 x y).trans
          (update_root_equiv IH.2.2.1 IH.2.2.2.1 ⟨rk, IH.2.2.2.2⟩ hg'' x y)
      · exact (update_inv IH.2.2.1 IH.2.2.2.1 IH.2.2.2.2 hb hg'').1
      · exact (update_inv IH.2.2.1 IH.2.2.2.1 IH.2.2.2.2 hb hg'').2.1
      · exact (update_inv IH.2.2.1 IH.2.2.2.1 IH.2.2.2.2 hb hg'').2.2

/-- `find_spec`: `CircuitNetwork.find` with fuel `S.card` returns the root
of the queried box, preserves the invariant, every root, and the circuit
count. -/
theorem find_spec {S : Finset α} {pairs : List (α × α)}
    {net : D08.CircuitNetwork α} (hInv : D08.UFInv S pairs net)
    {b : α} (hb : b ∈ S) :
    D08.UFInv S pairs (net.find S.card b).1 ∧
    (net.find S.card b).2 = D08.rootD S.card net.circuit_leader b ∧
    (∀ x ∈ S, D08.rootD S.card (net.find S.card b).1.circuit_leader x =
      D08.rootD S.card net.circuit_leader x) ∧
    (net.find S.card b).1.circuit_count = net.circuit_count := by
  obtain ⟨rk, hrk⟩ := hInv.acyclic
  have hreach := reach_fix hInv.closure ⟨rk, hrk⟩ hb
  have FA := findAux_spec hInv.outside hInv.closure hrk S.card b hb hreach
  have hleader : (net.find S.card b).1.circuit_leader =
      (D08.findAux S.card net.circuit_leader b).1 := rfl
  have hvalue : (net.find S.card b).2 =
      (D08.findAux S.card net.circuit_leader b).2 := rfl
  have hcount : (net.find S.card b).1.circuit_count = net.circuit_count := rfl
  have hroots : ∀ x ∈ S,
      D08.rootD S.card (net.find S.card b).1.circuit_leader x =
        D08.rootD S.card net.circuit_leader x := by
    intro x hx
    have hfx : D08.IsRootOf net.circuit_leader x
        (D08.rootD S.card net.circuit_leader x) :=
      rootD_isRoot hInv.closure ⟨rk, hrk⟩ hx
    have hpx : D08.IsRootOf (net.find S.card b).1.circuit_leader x
        (D08.rootD S.card net.circuit_leader x) := by
      rw [hleader]; exact (FA.2.1 _ _).1 hfx
    exact (root_eq_rootD (by rw [hleader]; exact FA.2.2.2.1)
      ⟨rk, by rw [hleader]; exact FA.2.2.2.2⟩ hx hpx).symm
  refine ⟨⟨?_, ?_, ?_, ?_, hInv.pairsIn, ?_⟩, ?_, hroots, hcount⟩
  · rw [hleader]; exact FA.2.2.1
  · rw [hleader]; exact FA.2.2.2.1
  · exact ⟨rk, by rw [hleader]; exact FA.2.2.2.2⟩
  · rw [hcount, hInv.count]
    congr 1
    exact Finset.image_congr fun x hx => (hroots x hx).symm
  · intro a ha c hc
    rw [hroots a ha, hroots c hc]
    exact hInv.part a ha c hc
  · rw [hvalue]
    exact root_eq_rootD hInv.closure ⟨rk, hrk⟩ hb FA.1

/-- After linking root `r1` to root `r2`, the root of each chain is the old
root, with `r1` replaced by `r2`. -/
theorem link_isRoot_forward {g : α → α} {r1 r2 : α}
    (hr1 : g r1 = r1) (hr2 : g r2 = r2) (hne : r1 ≠ r2) :
    ∀ (k : Nat) (x y : α), g^[k] x = y → g y = y →
      D08.IsRootOf (Function.update g r1 r2) x (if y = r1 then r2 else y) := by
  have hlink : D08.IsRootOf (Function.update g r1 r2) r1 r2 :=
    ⟨by rw [Function.update_noteq (Ne.symm hne)]; exact hr2,
      1, by rw [Function.iterate_one, Function.update_same]⟩
  intro k
  induction k with
  | zero =>
    intro x y hxy hy
    rw [Function.iterate_zero_apply] at hxy
    subst hxy
    by_cases hx1 : x = r1
    · rw [hx1, if_pos rfl]
      exact hlink
    · rw [if_neg hx1]
      exact ⟨by rw [Function.update_noteq hx1]; exact hy, 0, rfl⟩
  | succ k ih =>
    intro x y hxy hy
    rw [Function.iterate_succ_apply] at hxy
    by_cases hx1 : x = r1
    · have hy1 : y = r1 := by
        rw [← hxy, hx1, hr1]
        exact Function.iterate_fixed hr1 k
      rw [hy1, if_pos rfl, hx1]
      exact hlink
    · have htail := ih (g x) y hxy hy
      obtain ⟨hfix, j, hj⟩ := htail
      exact ⟨hfix, j + 1, by
        rw [Function.iterate_succ_apply, Function.update_noteq hx1]; exact hj⟩

/-- Linking two roots keeps the parent chains acyclic. -/
theorem link_acyclic {S : Finset α} {g : α → α} {rk : α → Nat}
    (hcl : ∀ x ∈ S, g x ∈ S)
    (hrk : ∀ x ∈ S, g x ≠ x → rk (g x) < rk x)
    {r1 r2 : α} (hr1 : g r1 = r1) (hr2 : g r2 = r2) (hne : r1 ≠ r2) :
    ∃ rk' : α → Nat, ∀ x ∈ S, Function.update g r1 r2 x ≠ x →
      rk' (Function.update g r1 r2 x) < rk' x := by
  classical
  refine ⟨fun z => if D08.IsRootOf g z r1 then rk z + rk r2 + 1 else rk z,
    fun x hx hne' => ?_⟩
  show (if D08.IsRootOf g (Function.update g r1 r2 x) r1
      then rk (Function.update g r1 r2 x) + rk r2 + 1
      else rk (Function.update g r1 r2 x)) <
    (if D08.IsRootOf g x r1 then rk x + rk r2 + 1 else rk x)
  by_cases hx1 : x = r1
  · rw [hx1, Function.update_same]
    have hxr : D08.IsRootOf g r1 r1 := ⟨hr1, 0, rfl⟩
    have hr2r : ¬ D08.IsRootOf g r2 r1 := by
      intro hcon
      exact hne (root_unique hcon ⟨hr2, 0, rfl⟩)
    rw [if_neg hr2r, if_pos hxr]
    omega
  · rw [Function.update_noteq hx1] at hne' ⊢
    have hshift : D08.IsRootOf g x r1 ↔ D08.IsRootOf g (g x) r1 := by
      constructor
      · intro h; exact root_shift h hne'
      · intro h; exact root_unshift h
    by_cases hc : D08.IsRootOf g x r1
    · rw [if_pos hc, if_pos (hshift.1 hc)]
      have := hrk x hx hne'
      omega
    · rw [if_neg hc, if_neg (fun hcon => hc (hshift.2 hcon))]
      exact hrk x hx hne'

/-- Merging the circuits of `b1` and `b2` updates the partition exactly as
extending the union-pair list does. -/
theorem part_link {S : Finset α} {pairs : List (α × α)} {root : α → α}
    (hpart : ∀ a ∈ S, ∀ b ∈ S,
      (root a = root b ↔ Relation.EqvGen (D08.pairRel pairs) a b))
    (hpairs : ∀ p ∈ pairs, p.1 ∈ S ∧ p.2 ∈ S)
    {b1 b2 : α} (hb1 : b1 ∈ S) (hb2 : b2 ∈ S) :
    ∀ a ∈ S, ∀ b ∈ S,
      ((if root a = root b1 then root b2 else root a) =
          (if root b = root b1 then root b2 else root b) ↔
        Relation.EqvGen (D08.pairRel ((b1, b2) :: pairs)) a b) := by
  have hmono : ∀ x y, Relation.EqvGen (D08.pairRel pairs) x y →
      Relation.EqvGen (D08.pairRel ((b1, b2) :: pairs)) x y := by
    intro x y
    refine Relation.EqvGen.mono ?_
    intro u v huv
    rcases huv with h | h
    · exact Or.inl (List.mem_cons_of_mem _ h)
    · exact Or.inr (List.mem_cons_of_mem _ h)
  have hE : ∀ x ∈ S, ∀ y ∈ S, root x = root y →
      Relation.EqvGen (D08.pairRel ((b1, b2) :: pairs)) x y :=
    fun x hx y hy hxy => hmono x y ((hpart x hx y hy).1 hxy)
  have hEb1b2 : Relation.EqvGen (D08.pairRel ((b1, b2) :: pairs)) b1 b2 :=
    Relation.EqvGen.rel _ _ (Or.inl (List.mem_cons_self _ _))
  have hnr_b2 : (if root b2 = root b1 then root b2 else root b2) = root b2 :=
    ite_self _
  intro a ha b hb
  constructor
  · intro heq
    by_cases hra : root a = root b1 <;> by_cases hrb : root b = root b1
    · exact Relation.EqvGen.trans _ _ _ (hE a ha b1 hb1 hra)
        (Relation.EqvGen.symm _ _ (hE b hb b1 hb1 hrb))
    · rw [if_pos hra, if_neg hrb] at heq
      refine Relation.EqvGen.trans _ _ _ (hE a ha b1 hb1 hra)
        (Relation.EqvGen.trans _ _ _ hEb1b2 ?_)
      exact hE b2 hb2 b hb heq
    · rw [if_neg hra, if_pos hrb] at heq
      refine Relation.EqvGen.trans _ _ _ ?_
        (Relation.EqvGen.symm _ _ (hE b hb b1 hb1 hrb))
      refine Relation.EqvGen.trans _ _ _ (hE a ha b2 hb2 heq) ?_
      exact Relation.EqvGen.symm _ _ hEb1b2
    · rw [if_neg hra, if_neg hrb] at heq
      exact hE a ha b hb heq
  · intro hgen
    have aux : ∀ x y, Relation.EqvGen (D08.pairRel ((b1, b2) :: pairs)) x y →
        (x = y ∨ (x ∈ S ∧ y ∈ S ∧
          (if root x = root b1 then root b2 else root x) =
            (if root y = root b1 then root b2 else root y))) := by
      intro x y hxy
      induction hxy with
      | rel u v huv =>
        rcases huv with h | h
        · rcases List.mem_cons.1 h with h | h
          · rw [Prod.mk.injEq] at h
            obtain ⟨rfl, rfl⟩ := h
            exact Or.inr ⟨hb1, hb2, by rw [if_pos rfl, hnr_b2]⟩
          · have hm := hpairs _ h
            have hroot := (hpart u hm.1 v hm.2).2
              (Relation.EqvGen.rel u v (Or.inl h))
            exact Or.inr ⟨hm.1, hm.2, by rw [hroot]⟩
        · rcases List.mem_cons.1 h with h | h
          · rw [Prod.mk.injEq] at h
            obtain ⟨rfl, rfl⟩ := h
            exact Or.inr ⟨hb2, hb1, by rw [if_pos rfl, hnr_b2]⟩
          · have hm := hpairs _ h
            have hroot := (hpart u hm.2 v hm.1).2
              (Relation.EqvGen.rel u v (Or.inr h))
            exact Or.inr ⟨hm.2, hm.1, by rw [hroot]⟩
      | refl u => exact Or.inl rfl
      | symm u v _ ih =>
        rcases ih with rfl | ⟨h1, h2, h3⟩
        · exact Or.inl rfl
        · exact Or.inr ⟨h2, h1, h3.symm⟩
      | trans u v w _ _ ih1 ih2 =>
        rcases ih1 with rfl | ⟨h1, h2, h3⟩
        · exact ih2
        · rcases ih2 with rfl | ⟨h4, h5, h6⟩
          · exact Or.inr ⟨h1, h2, h3⟩
          · exact Or.inr ⟨h1, h5, h3.trans h6⟩
    rcases aux a b hgen with rfl | ⟨_, _, h⟩
    · rfl
    · exact h

/-- `union_spec`: `CircuitNetwork.union` with fuel `S.card` preserves the
invariant (with the new pair recorded); it reports a merge exactly when the
two roots differed, decrementing the circuit count in that case and keeping
it otherwise. -/
theorem union_spec {S : Finset α} {pairs : List (α × α)}
    {net : D08.CircuitNetwork α} (hInv : D08.UFInv S pairs net)
    {b1 b2 : α} (hb1 : b1 ∈ S) (hb2 : b2 ∈ S) :
    D08.UFInv S ((b1, b2) :: pairs) (net.union S.card b1 b2).1 ∧
    ((net.union S.card b1 b2).2 = true ↔
      D08.rootD S.card net.circuit_leader b1 ≠
        D08.rootD S.card net.circuit_leader b2) ∧
    ((net.union S.card b1 b2).2 = true →
      (net.union S.card b1 b2).1.circuit_count = net.circuit_count - 1) ∧
    ((net.union S.card b1 b2).2 = false →
      (net.union S.card b1 b2).1.circuit_count = net.circuit_count) := by
  obtain ⟨hInv1, hval1, hpres1, hcount1⟩ := find_spec hInv hb1
  obtain ⟨hInv2, hval2, hpres2, hcount2⟩ := find_spec hInv1 hb2
  set n1 := (net.find S.card b1).1 with hn1
  set n2 := (n1.find S.card b2).1 with hn2
  set r1 := (net.find S.card b1).2 with hr1def
  set r2 := (n1.find S.card b2).2 with hr2def
  have hroot1 : r1 = D08.rootD S.card net.circuit_leader b1 := hval1
  have hroot2 : r2 = D08.rootD S.card net.circuit_leader b2 :=
    hval2.trans (hpres1 b2 hb2)
  have hroot1n2 : D08.rootD S.card n2.circuit_leader b1 = r1 := by
    rw [hpres2 b1 hb1, hpres1 b1 hb1, hroot1]
  have hroot2n2 : D08.rootD S.card n2.circuit_leader b2 = r2 := by
    rw [hpres2 b2 hb2, hpres1 b2 hb2, hroot2]
  obtain ⟨rk2, hrk2⟩ := hInv2.acyclic
  have hr1S : r1 ∈ S := by
    rw [← hroot1n2]
    exact chain_in_S hInv2.closure hb1 S.card
  have hr2S : r2 ∈ S := by
    rw [← hroot2n2]
    exact chain_in_S hInv2.closure hb2 S.card
  have hfix1 : n2.circuit_leader r1 = r1 := by
    have := (rootD_isRoot hInv2.closure ⟨rk2, hrk2⟩ hb1).1
    rwa [hroot1n2] at this
  have hfix2 : n2.circuit_leader r2 = r2 := by
    have := (rootD_isRoot hInv2.closure ⟨rk2, hrk2⟩ hb2).1
    rwa [hroot2n2] at this
  by_cases hr : r1 = r2
  · have hu : net.union S.card b1 b2 = (n2, false) := by
      rw [D08.CircuitNetwork.union]
      simp only [← hr1def, ← hn1, ← hr2def, ← hn2, hr, ne_eq,
        not_true_eq_false, if_false, Bool.false_eq_true, reduceIte]
    rw [hu]
    have hnr : ∀ x ∈ S,
        (if D08.rootD S.card n2.circuit_leader x =
            D08.rootD S.card n2.circuit_leader b1
          then D08.rootD S.card n2.circuit_leader b2
          else D08.rootD S.card n2.circuit_leader x) =
          D08.rootD S.card n2.circuit_leader x := by
      intro x _
      by_cases h : D08.rootD S.card n2.circuit_leader x =
          D08.rootD S.card n2.circuit_leader b1
      · rw [if_pos h, h, hroot1n2, hroot2n2, hr]
      · rw [if_neg h]
    refine ⟨⟨hInv2.outside, hInv2.closure, hInv2.acyclic, hInv2.count,
      ?_, ?_⟩, ?_, ?_, ?_⟩
    · intro p hp
      rcases List.mem_cons.1 hp with rfl | hp
      · exact ⟨hb1, hb2⟩
      · exact hInv2.pairsIn p hp
    · intro a ha b hb
      rw [← hnr a ha, ← hnr b hb]
      exact part_link hInv2.part hInv2.pairsIn hb1 hb2 a ha b hb
    · simp only [Bool.false_eq_true, false_iff, ne_eq, not_not]
      rw [← hroot1, ← hroot2]
      exact hr
    · intro h; exact absurd h (by simp)
    · intro _
      rw [hcount2, hcount1]
  · have hu : net.union S.card b1 b2 =
        ({ circuit_leader := Function.update n2.circuit_leader r1 r2,
           circuit_count := n2.circuit_count - 1 }, true) := by
      rw [D08.CircuitNetwork.union]
      simp only [← hr1def, ← hn1, ← hr2def, ← hn2, ne_eq, hr,
        not_false_eq_true, if_true, reduceIte]
    rw [hu]
    set g3 := Function.update n2.circuit_leader r1 r2 with hg3
    have hg3out : ∀ x ∉ S, g3 x = x := by
      intro x hx
      rw [hg3, Function.update_noteq (fun he => hx (by rw [he]; exact hr1S))]
      exact hInv2.outside x hx
    have hg3cl : ∀ x ∈ S, g3 x ∈ S := by
      intro x hx
      by_cases hxr : x = r1
      · rw [hg3, hxr, Function.update_same]; exact hr2S
      · rw [hg3, Function.update_noteq hxr]; exact hInv2.closure x hx
    have hg3acy := link_acyclic hInv2.closure hrk2 hfix1 hfix2 hr
    have hg3root : ∀ x ∈ S, D08.rootD S.card g3 x =
        (if D08.rootD S.card n2.circuit_leader x =
            D08.rootD S.card n2.circuit_leader b1
          then D08.rootD S.card n2.circuit_leader b2
          else D08.rootD S.card n2.circuit_leader x) := by
      intro x hx
      have hfixx := (rootD_isRoot hInv2.closure ⟨rk2, hrk2⟩ hx).1
      have hfwd := link_isRoot_forward hfix1 hfix2 hr S.card x
        (D08.rootD S.card n2.circuit_leader x) rfl hfixx
      rw [hroot1n2, hroot2n2]
      exact (root_eq_rootD hg3cl hg3acy hx hfwd).symm
    have himage : S.image (D08.rootD S.card g3) =
        (S.image (D08.rootD S.card n2.circuit_leader)).erase r1 := by
      refine Finset.ext fun y => ?_
      simp only [Finset.mem_image, Finset.mem_erase]
      constructor
      · rintro ⟨x, hx, hxy⟩
        rw [hg3root x hx] at hxy
        by_cases h : D08.rootD S.card n2.circuit_leader x =
            D08.rootD S.card n2.circuit_leader b1
        · rw [if_pos h, hroot2n2] at hxy
          exact ⟨by rw [← hxy]; exact fun hc => hr hc.symm,
            ⟨b2, hb2, by rw [hroot2n2, hxy]⟩⟩
        · rw [if_neg h] at hxy
          refine ⟨?_, ⟨x, hx, hxy⟩⟩
          rw [← hxy, ← hroot1n2]
          exact fun hc => h (by rw [hc, hroot1n2])
      · rintro ⟨hyne, x, hx, hxy⟩
        refine ⟨x, hx, ?_⟩
        rw [hg3root x hx, if_neg ?_, hxy]
        rw [hxy, hroot1n2]
        exact fun hc => hyne (by rw [← hxy] at hc ⊢; exact hc)
    have hr1mem : r1 ∈ S.image (D08.rootD S.card n2.circuit_leader) :=
      Finset.mem_image.2 ⟨b1, hb1, hroot1n2⟩
    refine ⟨⟨hg3out, hg3cl, hg3acy, ?_, ?_, ?_⟩, ?_, ?_, ?_⟩
    · show n2.circuit_count - 1 = (S.image (D08.rootD S.card g3)).card
      rw [himage, Finset.card_erase_of_mem hr1mem, hInv2.count]
    · intro p hp
      rcases List.mem_cons.1 hp with rfl | hp
      · exact ⟨hb1, hb2⟩
      · exact hInv2.pairsIn p hp
    · intro a ha b hb
      show D08.rootD S.card g3 a = D08.rootD S.card g3 b ↔ _
      rw [hg3root a ha, hg3root b hb]
      exact part_link hInv2.part hInv2.pairsIn hb1 hb2 a ha b hb
    · simp only [true_iff, ne_eq]
      rw [← hroot1, ← hroot2]
      exact hr
    · intro _
      show n2.circuit_count - 1 = net.circuit_count - 1
      rw [hcount2, hcount1]
    · intro h; exact absurd h (by simp)

/-- The equivalence closure over no pairs is equality. -/
theorem eqvGen_nil {a b : α} :
    Relation.EqvGen (D08.pairRel ([] : List (α × α))) a b ↔ a = b := by
  constructor
  · intro h
    induction h with
    | rel u v huv => rcases huv with h | h <;> exact absurd h (List.not_mem_nil _)
    | refl u => rfl
    | symm u v _ ih => exact ih.symm
    | trans u v w _ _ ih1 ih2 => exact ih1.trans ih2
  · rintro rfl
    exact Relation.EqvGen.refl a

/-- The invariant only depends on the set of recorded pairs. -/
theorem inv_pairs_congr {S : Finset α} {pairs pairs' : List (α × α)}
    {net : D08.CircuitNetwork α} (h : ∀ p, p ∈ pairs ↔ p ∈ pairs')
    (hInv : D08.UFInv S pairs net) : D08.UFInv S pairs' net := by
  have hrel : ∀ x y, D08.pairRel pairs x y ↔ D08.pairRel pairs' x y := by
    intro x y
    rw [D08.pairRel, D08.pairRel, h, h]
  refine ⟨hInv.outside, hInv.closure, hInv.acyclic, hInv.count, ?_, ?_⟩
  · intro p hp
    exact hInv.pairsIn p ((h p).2 hp)
  · intro a ha b hb
    rw [hInv.part a ha b hb]
    constructor <;> refine Relation.EqvGen.mono ?_ <;> intro u v huv
    · exact (hrel u v).1 huv
    · exact (hrel u v).2 huv

/-- The initial network satisfies the invariant with no recorded pairs. -/
theorem init_inv (boxes : List α) (hnd : boxes.Nodup) :
    D08.UFInv boxes.toFinset [] (D08.CircuitNetwork.init boxes) := by
  have hroot : ∀ b : α,
      D08.rootD boxes.toFinset.card
        (D08.CircuitNetwork.init boxes).circuit_leader b = b := by
    intro b
    rw [D08.rootD]
    exact Function.iterate_fixed rfl _
  refine ⟨fun b _ => rfl, fun b hb => hb, ⟨fun _ => 0, fun b _ h => absurd rfl h⟩,
    ?_, fun p hp => absurd hp (List.not_mem_nil p), ?_⟩
  · show boxes.length = _
    rw [show Finset.image _ boxes.toFinset = boxes.toFinset from
      Finset.ext fun y => by
        simp only [Finset.mem_image]
        constructor
        · rintro ⟨x, hx, hxy⟩; rw [← hxy, hroot x]; exact hx
        · intro hy; exact ⟨y, hy, hroot y⟩]
    exact (List.toFinset_card_of_nodup hnd).symm
  · intro a ha b hb
    rw [hroot a, hroot b, eqvGen_nil]

/-- Running any sequence of `find`/`union` calls preserves the invariant,
recording exactly the pairs of the `union` calls. -/
theorem exec_inv {S : Finset α} : ∀ (ops : List (D08.Op α))
    (net : D08.CircuitNetwork α) (pairs : List (α × α)),
    D08.UFInv S pairs net → (∀ op ∈ ops, D08.OpOn S op) →
    D08.UFInv S (pairs ++ D08.unionPairs ops) (D08.exec S.card net ops) := by
  intro ops
  induction ops with
  | nil =>
    intro net pairs hInv _
    rw [D08.exec, D08.unionPairs, List.append_nil]
    exact hInv
  | cons op rest ih =>
    intro net pairs hInv hops
    have hrest : ∀ o ∈ rest, D08.OpOn S o := fun o ho => hops o (by simp [ho])
    cases op with
    | find b =>
      have hb : b ∈ S := hops (D08.Op.find b) (List.mem_cons_self _ _)
      rw [D08.exec, D08.unionPairs]
      exact ih _ pairs (find_spec hInv hb).1 hrest
    | union b1 b2 =>
      have hb : b1 ∈ S ∧ b2 ∈ S := hops (D08.Op.union b1 b2) (List.mem_cons_self _ _)
      rw [D08.exec, D08.unionPairs]
      have hstep := ih _ ((b1, b2) :: pairs)
        (union_spec hInv hb.1 hb.2).1 hrest
      refine inv_pairs_congr (fun p => ?_) hstep
      simp only [List.mem_append, List.mem_cons]
      tauto

/-- Every unordered pair of distinct list elements appears (in one order)
among `itertools.combinations(l, 2)`. -/
theorem combinations_mem : ∀ (l : List α) (a b : α), a ∈ l → b ∈ l → a ≠ b →
    ((a, b) ∈ D08.combinations l ∨ (b, a) ∈ D08.combinations l) := by
  intro l
  induction l with
  | nil => intro a b ha; exact absurd ha (List.not_mem_nil a)
  | cons x xs ih =>
    intro a b ha hb hne
    rw [D08.combinations]
    rcases List.mem_cons.1 ha with rfl | ha'
    · have hb' : b ∈ xs := by
        rcases List.mem_cons.1 hb with h | h
        · exact absurd h.symm hne
        · exact h
      exact Or.inl (List.mem_append_left _
        (List.mem_map.2 ⟨b, hb', rfl⟩))
    · rcases List.mem_cons.1 hb with rfl | hb'
      · exact Or.inr (List.mem_append_left _
          (List.mem_map.2 ⟨a, ha', rfl⟩))
      · rcases ih a b ha' hb' hne with h | h
        · exact Or.inl (List.mem_append_right _ h)
        · exact Or.inr (List.mem_append_right _ h)

/-- Pairs produced by `combinations` consist of list elements. -/
theorem combinations_sub : ∀ (l : List α) (p : α × α),
    p ∈ D08.combinations l → p.1 ∈ l ∧ p.2 ∈ l := by
  intro l
  induction l with
  | nil => intro p hp; exact absurd hp (List.not_mem_nil p)
  | cons x xs ih =>
    intro p hp
    rw [D08.combinations] at hp
    rcases List.mem_append.1 hp with h | h
    · obtain ⟨c, hc, rfl⟩ := List.mem_map.1 h
      exact ⟨List.mem_cons_self _ _, List.mem_cons_of_mem _ hc⟩
    · have := ih p h
      exact ⟨List.mem_cons_of_mem _ this.1, List.mem_cons_of_mem _ this.2⟩

/-- If the `part2` loop of `d08.py` walks a whole pair list without
returning, the circuit count never reached 1 and the invariant holds for
the final state. -/
theorem part2Go_none_run {S : Finset D08.Box} :
    ∀ (l : List (D08.Box × D08.Box)) (net : D08.CircuitNetwork D08.Box)
      (pairs : List (D08.Box × D08.Box)),
    D08.UFInv S pairs net → (∀ p ∈ l, p.1 ∈ S ∧ p.2 ∈ S) →
    net.circuit_count ≠ 1 →
    D08.part2Go S.card net l = none →
    (D08.foldUnions S.card net l).circuit_count ≠ 1 ∧
    D08.UFInv S (pairs ++ l) (D08.foldUnions S.card net l) := by
  intro l
  induction l with
  | nil =>
    intro net pairs hInv _ hcount _
    rw [D08.foldUnions]
    exact ⟨hcount, by rw [List.append_nil]; exact hInv⟩
  | cons c rest ih =>
    rcases c with ⟨b1, b2⟩
    intro net pairs hInv hl hcount hnone
    have hb := hl (b1, b2) (List.mem_cons_self _ _)
    have hrest : ∀ p ∈ rest, p.1 ∈ S ∧ p.2 ∈ S :=
      fun p hp => hl p (List.mem_cons_of_mem _ hp)
    have US := union_spec hInv hb.1 hb.2
    rw [D08.part2Go] at hnone
    rw [D08.foldUnions]
    by_cases hm : (net.union S.card b1 b2).2 = true
    · rw [hm, if_pos rfl] at hnone
      by_cases hc : (net.union S.card b1 b2).1.circuit_count = 1
      · rw [if_pos hc] at hnone
        exact absurd hnone (Option.some_ne_none _)
      · rw [if_neg hc] at hnone
        have hres := ih _ ((b1, b2) :: pairs) US.1 hrest hc hnone
        refine ⟨hres.1, inv_pairs_congr (fun p => ?_) hres.2⟩
        simp only [List.mem_append, List.mem_cons]
        tauto
    · rw [Bool.not_eq_true] at hm
      rw [hm, if_neg Bool.false_ne_true] at hnone
      have hc : (net.union S.card b1 b2).1.circuit_count ≠ 1 := by
        rw [US.2.2.2 hm]
        exact hcount
      have hres := ih _ ((b1, b2) :: pairs) US.1 hrest hc hnone
      refine ⟨hres.1, inv_pairs_congr (fun p => ?_) hres.2⟩
      simp only [List.mem_append, List.mem_cons]
      tauto

/-- If the `part2` loop of `d08.py` returns a value, that value is the
product of the x coordinates of the first connection whose union drops the
circuit count to 1. -/
theorem part2Go_some_split {S : Finset D08.Box} :
    ∀ (l : List (D08.Box × D08.Box)) (net : D08.CircuitNetwork D08.Box)
      (pairs : List (D08.Box × D08.Box)) (v : Int),
    D08.UFInv S pairs net → (∀ p ∈ l, p.1 ∈ S ∧ p.2 ∈ S) →
    net.circuit_count ≠ 1 →
    D08.part2Go S.card net l = some v →
    ∃ pre b1 b2 post, l = pre ++ (b1, b2) :: post ∧ v = b1.x * b2.x ∧
      (D08.foldUnions S.card net (pre ++ [(b1, b2)])).circuit_count = 1 ∧
      (D08.foldUnions S.card net pre).circuit_count ≠ 1 := by
  intro l
  induction l with
  | nil =>
    intro net pairs v _ _ _ hsome
    rw [D08.part2Go] at hsome
    exact absurd hsome (Option.noConfusion)
  | cons c rest ih =>
    rcases c with ⟨b1, b2⟩
    intro net pairs v hInv hl hcount hsome
    have hb := hl (b1, b2) (List.mem_cons_self _ _)
    have hrest : ∀ p ∈ rest, p.1 ∈ S ∧ p.2 ∈ S :=
      fun p hp => hl p (List.mem_cons_of_mem _ hp)
    have US := union_spec hInv hb.1 hb.2
    rw [D08.part2Go] at hsome
    by_cases hm : (net.union S.card b1 b2).2 = true
    · rw [hm, if_pos rfl] at hsome
      by_cases hc : (net.union S.card b1 b2).1.circuit_count = 1
      · rw [if_pos hc] at hsome
        refine ⟨[], b1, b2, rest, rfl, (Option.some_inj.1 hsome).symm, ?_, ?_⟩
        · rw [List.nil_append]
          show (D08.foldUnions S.card (net.union S.card b1 b2).1 []).circuit_count = 1
          rw [D08.foldUnions]
          exact hc
        · rw [D08.foldUnions]
          exact hcount
      · rw [if_neg hc] at hsome
        obtain ⟨pre, c1, c2, post, hsplit, hv, h1, h2⟩ :=
          ih _ ((b1, b2) :: pairs) v US.1 hrest hc hsome
        refine ⟨(b1, b2) :: pre, c1, c2, post, by rw [hsplit, List.cons_append], hv, ?_, ?_⟩
        · show (D08.foldUnions S.card (net.union S.card b1 b2).1
            (pre ++ [(c1, c2)])).circuit_count = 1
          exact h1
        · show (D08.foldUnions S.card (net.union S.card b1 b2).1
            pre).circuit_count ≠ 1
          exact h2
    · rw [Bool.not_eq_true] at hm
      rw [hm, if_neg Bool.false_ne_true] at hsome
      have hc : (net.union S.card b1 b2).1.circuit_count ≠ 1 := by
        rw [US.2.2.2 hm]
        exact hcount
      obtain ⟨pre, c1, c2, post, hsplit, hv, h1, h2⟩ :=
        ih _ ((b1, b2) :: pairs) v US.1 hrest hc hsome
      refine ⟨(b1, b2) :: pre, c1, c2, post, by rw [hsplit, List.cons_append], hv, ?_, ?_⟩
      · show (D08.foldUnions S.card (net.union S.card b1 b2).1
          (pre ++ [(c1, c2)])).circuit_count = 1
        exact h1
      · show (D08.foldUnions S.card (net.union S.card b1 b2).1
          pre).circuit_count ≠ 1
        exact h2

/-- C5: for every `CircuitNetwork` built from a list of distinct boxes and
every sequence of `find` and `union` calls on those boxes:
`circuit_count` equals the number of distinct root leaders reachable
through `circuit_leader`; the values of `find(a)` and `find(b)` coincide
exactly when `a` and `b` have been connected by the `union` calls
performed so far; and `find` (path compression) changes neither any box's
root nor `circuit_count`. -/
theorem c5_circuit_network {α : Type} [DecidableEq α]
    (boxes : List α) (hnd : boxes.Nodup) (ops : List (D08.Op α))
    (hops : ∀ op ∈ ops, D08.OpOn boxes.toFinset op) :
    (D08.exec boxes.length (D08.CircuitNetwork.init boxes) ops).circuit_count =
      (boxes.toFinset.image (D08.rootD boxes.toFinset.card
        (D08.exec boxes.length
          (D08.CircuitNetwork.init boxes) ops).circuit_leader)).card ∧
    (∀ a ∈ boxes.toFinset, ∀ b ∈ boxes.toFinset,
      (((D08.exec boxes.length (D08.CircuitNetwork.init boxes) ops).find
          boxes.length a).2 =
        (((D08.exec boxes.length (D08.CircuitNetwork.init boxes) ops).find
          boxes.length a).1.find boxes.length b).2 ↔
        Relation.EqvGen (D08.pairRel (D08.unionPairs ops)) a b)) ∧
    (∀ a ∈ boxes.toFinset,
      ((D08.exec boxes.length (D08.CircuitNetwork.init boxes) ops).find
          boxes.length a).1.circuit_count =
        (D08.exec boxes.length (D08.CircuitNetwork.init boxes) ops).circuit_count ∧
      ∀ x ∈ boxes.toFinset,
        D08.rootD boxes.toFinset.card
          ((D08.exec boxes.length (D08.CircuitNetwork.init boxes) ops).find
            boxes.length a).1.circuit_leader x =
        D08.rootD boxes.toFinset.card
          (D08.exec boxes.length
            (D08.CircuitNetwork.init boxes) ops).circuit_leader x) := by
  have hcard : boxes.toFinset.card = boxes.length :=
    List.toFinset_card_of_nodup hnd
  rw [← hcard]
  have hfinal := exec_inv ops (D08.CircuitNetwork.init boxes) []
    (init_inv boxes hnd) hops
  rw [List.nil_append] at hfinal
  refine ⟨hfinal.count, ?_, ?_⟩
  · intro a ha b hb
    obtain ⟨hInvA, hvalA, hpresA, _⟩ := find_spec hfinal ha
    obtain ⟨_, hvalB, _, _⟩ := find_spec hInvA hb
    rw [hvalA, hvalB, hpresA b hb]
    exact hfinal.part a ha b hb
  · intro a ha
    obtain ⟨_, _, hpresA, hcountA⟩ := find_spec hfinal ha
    exact ⟨hcountA, hpresA⟩

/-- Witness for C5, at boxes `[0, 1]` (naturals) and a single union. -/
theorem c5_circuit_network_witness :
    ([(0 : Nat), 1].Nodup) ∧
    (D08.exec [(0 : Nat), 1].length
        (D08.CircuitNetwork.init [(0 : Nat), 1]) [D08.Op.union 0 1]).circuit_count =
      ([(0 : Nat), 1].toFinset.image (D08.rootD [(0 : Nat), 1].toFinset.card
        (D08.exec [(0 : Nat), 1].length (D08.CircuitNetwork.init [(0 : Nat), 1])
          [D08.Op.union 0 1]).circuit_leader)).card := by
  refine ⟨by decide, ?_⟩
  refine (c5_circuit_network [0, 1] (by decide) [D08.Op.union 0 1] ?_).1
  intro op hop
  rcases List.mem_cons.1 hop with rfl | hop
  · exact ⟨by decide, by decide⟩
  · exact absurd hop (List.not_mem_nil op)

/-- C10: `part2` of `d08.py` returns `None` exactly when there are fewer
than two (distinct) boxes; with two or more boxes it returns the product
`b1.x * b2.x` of the connection whose union first reduces the circuit count
to 1, and never returns `None`. -/
theorem c10_part2_spec (boxes : List D08.Box) (hnd : boxes.Nodup) :
    (D08.part2 boxes = none ↔ boxes.length < 2) ∧
    (2 ≤ boxes.length →
      ∃ pre b1 b2 post,
        List.insertionSort D08.distLe (D08.combinations boxes) =
          pre ++ (b1, b2) :: post ∧
        D08.part2 boxes = some (b1.x * b2.x) ∧
        (D08.foldUnions boxes.length (D08.CircuitNetwork.init boxes)
          (pre ++ [(b1, b2)])).circuit_count = 1 ∧
        (D08.foldUnions boxes.length (D08.CircuitNetwork.init boxes)
          pre).circuit_count ≠ 1) := by
  have hcard : boxes.toFinset.card = boxes.length :=
    List.toFinset_card_of_nodup hnd
  by_cases hlen : 2 ≤ boxes.length
  · set conns := List.insertionSort D08.distLe (D08.combinations boxes)
      with hconns
    have hconns_sub : ∀ p ∈ conns, p.1 ∈ boxes.toFinset ∧
        p.2 ∈ boxes.toFinset := by
      intro p hp
      have hp2 : p ∈ D08.combinations boxes :=
        (List.perm_insertionSort D08.distLe (D08.combinations boxes)).mem_iff.1
          (hconns ▸ hp)
      have := combinations_sub boxes p hp2
      exact ⟨List.mem_toFinset.2 this.1, List.mem_toFinset.2 this.2⟩
    have hfuel : D08.part2 boxes =
        D08.part2Go boxes.toFinset.card (D08.CircuitNetwork.init boxes)
          conns := by
      rw [D08.part2, hcard]
    have hcount0 : (D08.CircuitNetwork.init boxes).circuit_count ≠ 1 := by
      show boxes.length ≠ 1
      omega
    have hinit := init_inv boxes hnd
    have hnone : D08.part2 boxes ≠ none := by
      intro hno
      rw [hfuel] at hno
      obtain ⟨hfc, hfinv⟩ := part2Go_none_run conns
        (D08.CircuitNetwork.init boxes) [] hinit hconns_sub hcount0 hno
      rw [List.nil_append] at hfinv
      have hall : ∀ a ∈ boxes.toFinset, ∀ b ∈ boxes.toFinset,
          D08.rootD boxes.toFinset.card
            (D08.foldUnions boxes.toFinset.card
              (D08.CircuitNetwork.init boxes) conns).circuit_leader a =
          D08.rootD boxes.toFinset.card
            (D08.foldUnions boxes.toFinset.card
              (D08.CircuitNetwork.init boxes) conns).circuit_leader b := by
        intro a ha b hb
        rw [hfinv.part a ha b hb]
        by_cases hab : a = b
        · rw [hab]
          exact Relation.EqvGen.refl b
        · rcases combinations_mem boxes a b (List.mem_toFinset.1 ha)
            (List.mem_toFinset.1 hb) hab with h | h
          · exact Relation.EqvGen.rel a b (Or.inl
              ((List.perm_insertionSort D08.distLe _).mem_iff.2 h))
          · exact Relation.EqvGen.rel a b (Or.inr
              ((List.perm_insertionSort D08.distLe _).mem_iff.2 h))
      obtain ⟨b0, hb0⟩ := Finset.card_pos.1 (by omega : 0 < boxes.toFinset.card)
      have himg : boxes.toFinset.image (D08.rootD boxes.toFinset.card
          (D08.foldUnions boxes.toFinset.card
            (D08.CircuitNetwork.init boxes) conns).circuit_leader) =
          {D08.rootD boxes.toFinset.card
            (D08.foldUnions boxes.toFinset.card
              (D08.CircuitNetwork.init boxes) conns).circuit_leader b0} := by
        refine Finset.ext fun y => ?_
        simp only [Finset.mem_image, Finset.mem_singleton]
        constructor
        · rintro ⟨x, hx, rfl⟩
          exact hall x hx b0 hb0
        · rintro rfl
          exact ⟨b0, hb0, rfl⟩
      have := hfinv.count
      rw [himg, Finset.card_singleton] at this
      exact hfc this
    refine ⟨⟨fun h => absurd h hnone, fun h => absurd h (by omega)⟩, fun _ => ?_⟩
    obtain ⟨v, hv⟩ := Option.ne_none_iff_exists'.1 hnone
    have hv' := hv
    rw [hfuel] at hv'
    obtain ⟨pre, b1, b2, post, hsplit, hvv, h1, h2⟩ :=
      part2Go_some_split conns (D08.CircuitNetwork.init boxes) [] v hinit
        hconns_sub hcount0 hv'
    rw [← hcard]
    exact ⟨pre, b1, b2, post, hsplit, by rw [hv, hvv], h1, h2⟩
  · have hnil : D08.part2 boxes = none := by
      rcases boxes with _ | ⟨b, _ | ⟨c, rest⟩⟩
      · rfl
      · rfl
      · exact absurd (by simp) hlen
    exact ⟨⟨fun _ => by omega, fun _ => hnil⟩, fun h => absurd h hlen⟩

/-- Witness for C10, at the two-box list `[(0,0,0), (1,0,0)]`. -/
theorem c10_part2_spec_witness :
    ([D08.Box.mk 0 0 0, D08.Box.mk 1 0 0].Nodup) ∧
    (D08.part2 [D08.Box.mk 0 0 0, D08.Box.mk 1 0 0] = none ↔
      [D08.Box.mk 0 0 0, D08.Box.mk 1 0 0].length < 2) :=
  ⟨by decide, (c10_part2_spec [D08.Box.mk 0 0 0, D08.Box.mk 1 0 0]
    (by decide)).1⟩

end UnionFind
